import Mathlib

/-!
# Word-cloud statistics engine: a shallow embedding

This file embeds the statistics core of the `wordcloud` repository
(`src/data_processor.py`, `src/session_loader.py`, `src/config.py`) in Lean 4
and proves the specification's claims about it.

Modelling conventions:
* Python `dict`s are insertion-ordered association lists `List (String × β)`
  with unique keys; `d[k] += n` on a `defaultdict(int)` updates an existing
  key in place and appends a fresh key at the end, exactly as CPython does.
* Python `set`s are lists used only through membership.
* Tokens carry only the fields the statistics core reads (`word`, `speaker`);
  the timing/confidence fields are floats that the core never inspects.
* `sorted(..., key=..., reverse=True)` is a stable descending sort; it is
  embedded as a stable insertion sort with the same comparison.
-/

set_option autoImplicit false

namespace WordCloud

/-- A transcript token as produced by `load_transcript` (`data_processor.py`).
Only the `word` and `speaker` fields are read by the statistics core; the
`start`/`end`/`score` floats are pass-through and omitted here. -/
structure Token where
  word : String
  speaker : String
  deriving Repr, DecidableEq

/-- One speaker's metadata dict, as built by `load_speakerlist`: the keys are
`"speaker_id"`, `"name"` and the lower-cased CSV columns, values are strings
(the empty string meaning absent). -/
abbrev Meta := List (String × String)

/-- A speaker directory: dict keyed by speaker display name. -/
abbrev Dir := List (String × Meta)

/-- A filter: dict from metadata field name to the list of selected values. -/
abbrev Filters := List (String × List String)

/-! ## Dict primitives -/

/-- `m.get(k)` on a Python dict: the value of the first (unique) matching key. -/
def lookup {β : Type} (m : List (String × β)) (k : String) : Option β :=
  match m with
  | [] => none
  | (k₂, v) :: rest => if k₂ = k then some v else lookup rest k

/-- The key list of a dict. -/
def keys {β : Type} (m : List (String × β)) : List String :=
  m.map Prod.fst

/-- `d[k] += n` on a `defaultdict(int)`: update in place, append if fresh. -/
def bump (m : List (String × Nat)) (k : String) (n : Nat) : List (String × Nat) :=
  match m with
  | [] => [(k, n)]
  | (k₂, v) :: rest => if k₂ = k then (k₂, v + n) :: rest else (k₂, v) :: bump rest k n

/-- `d[k₁][k₂] += n` on a `defaultdict(lambda: defaultdict(int))`. -/
def bump2 (m : List (String × List (String × Nat))) (k₁ k₂ : String) (n : Nat) :
    List (String × List (String × Nat)) :=
  match m with
  | [] => [(k₁, [(k₂, n)])]
  | (k₂', v) :: rest =>
    if k₂' = k₁ then (k₂', bump v k₂ n) :: rest else (k₂', v) :: bump2 rest k₁ k₂ n

/-- `d[k] = v` on a Python dict: overwrite in place, append if fresh. -/
def assign {β : Type} (m : List (String × β)) (k : String) (v : β) : List (String × β) :=
  match m with
  | [] => [(k, v)]
  | (k₂, w) :: rest => if k₂ = k then (k₂, v) :: rest else (k₂, w) :: assign rest k v

/-- `sum(d.values())`. -/
def sumVals (m : List (String × Nat)) : Nat :=
  (m.map Prod.snd).sum

/-! ## Tokenizer / stop words (`clean_word`, `get_stop_words`) -/

/-- A regex `\w` word character (ASCII fragment: letters, digits, underscore). -/
def isWordChar (c : Char) : Bool :=
  c.isAlphanum || c = '_'

/-- `clean_word` (`data_processor.py` lines 103-109): strip leading and
trailing non-word characters (`re.sub(r'^[^\w]+|[^\w]+$', '', word)`), then
lower-case and strip whitespace. -/
def clean_word (word : String) : String :=
  let cs := word.toList
  let cs := cs.dropWhile (fun c => !isWordChar c)
  let cs := (cs.reverse.dropWhile (fun c => !isWordChar c)).reverse
  let cs := cs.map Char.toLower
  let cs := cs.dropWhile Char.isWhitespace
  let cs := (cs.reverse.dropWhile Char.isWhitespace).reverse
  String.mk cs

/-- Python's `str.lower()` (ASCII fragment), written over the character list
so that it evaluates by kernel reduction. -/
def lowerStr (s : String) : String :=
  String.mk (s.toList.map Char.toLower)

/-- `CUSTOM_STOP_WORDS` from `config.py` (a Python set; only membership is
used). Apostrophes are written with the `\x27` escape. -/
def CUSTOM_STOP_WORDS : List String :=
  [ "yeah", "okay", "ok", "um", "uh", "like", "know", "think",
    "going", "gonna", "got", "just", "really", "actually",
    "thing", "things", "something", "lot", "kind", "sort",
    "question", "questions", "slide", "slides", "next",
    "green", "yellow", "red", "greens", "yellows", "reds",
    "oh", "us", "anything", "feel", "done", "sure", "start",
    "point", "couple", "sense", "last", "end", "else", "folks",
    "session", "four", "half", "looking", "coming", "terms",
    "another", "anyone", "everyone", "talking", "talk", "day",
    "across", "trying", "better", "whether", "saying",
    "nova", "scotia",
    "there\x27s", "that\x27s", "it\x27s", "don\x27t", "can\x27t", "won\x27t",
    "wouldn\x27t", "couldn\x27t", "shouldn\x27t", "we\x27re", "they\x27re",
    "you\x27re", "i\x27m", "he\x27s", "she\x27s", "we\x27ve", "they\x27ve",
    "you\x27ve", "i\x27ve", "let\x27s", "what\x27s", "who\x27s", "how\x27s",
    "here\x27s", "wasn\x27t", "weren\x27t", "hasn\x27t", "haven\x27t",
    "didn\x27t", "isn\x27t", "aren\x27t", "doesn\x27t",
    "would", "could", "should", "might", "may", "must",
    "get", "go", "went", "come", "came", "say", "said",
    "see", "saw", "make", "made", "take", "took", "give",
    "gave", "put", "let", "try", "look", "want", "need",
    "tell", "told", "ask", "asked", "use", "used",
    "well", "right", "mean", "bit", "way", "even", "still",
    "also", "probably", "maybe", "anyway", "basically",
    "certainly", "definitely", "obviously",
    "essentially", "guess", "suppose",
    "now", "then", "today", "time", "already", "yet",
    "one", "two", "three", "first", "much", "many",
    "little", "big", "good", "great", "back", "around",
    "different", "able", "new", "part", "people" ]

/-- `set('abcdefghijklmnopqrstuvwxyz')` as single-character strings. -/
def singleLetterStopWords : List String :=
  "abcdefghijklmnopqrstuvwxyz".toList.map (fun c => String.mk [c])

/-- `set(str(i) for i in range(100))`. -/
def digitStopWords : List String :=
  (List.range 100).map toString

/-- `get_stop_words` (`data_processor.py` lines 93-100).  The NLTK English
stop-word list is external corpus data (a library data file, not code of this
repository), so it is taken as a parameter `nltk_english`; every theorem below
is proved for all values of it. -/
def get_stop_words (nltk_english : List String) : List String :=
  nltk_english ++ CUSTOM_STOP_WORDS ++ singleLetterStopWords ++ digitStopWords

/-! ## Word statistics (`compute_word_stats`) -/

/-- The in-progress per-word record held in the `word_stats` defaultdict of
`compute_word_stats` (before the derived `speaker_count` is added). -/
structure Entry0 where
  total_count : Nat
  speakers : List (String × Nat)
  metadata : List (String × List (String × Nat))
  deriving Repr, DecidableEq

/-- The defaultdict default: `{"total_count": 0, "speakers": {}, "metadata": {}}`. -/
def Entry0.init : Entry0 := ⟨0, [], []⟩

/-- A finalized per-word record, with the derived `speaker_count` field. -/
structure WordStatsEntry where
  total_count : Nat
  speaker_count : Nat
  speakers : List (String × Nat)
  metadata : List (String × List (String × Nat))
  deriving Repr, DecidableEq

/-- A word-statistics table: dict from word to its entry. -/
abbrev Table := List (String × WordStatsEntry)

/-- `word_stats[word]` access followed by an update `f` on a defaultdict:
the default entry is materialized and updated if the key is fresh. -/
def updateTable (t : List (String × Entry0)) (w : String) (f : Entry0 → Entry0) :
    List (String × Entry0) :=
  match t with
  | [] => [(w, f Entry0.init)]
  | (k, e) :: rest => if k = w then (k, f e) :: rest else (k, e) :: updateTable rest w f

/-- The metadata loop shared by `compute_word_stats` (n = 1) and
`filter_word_stats` (n = the speaker's count):
`for key, value in meta.items(): if key not in ["speaker_id", "name"] and value:
md[key][value] += n`. -/
def addMeta (meta : Meta) (n : Nat) (md : List (String × List (String × Nat))) :
    List (String × List (String × Nat)) :=
  match meta with
  | [] => md
  | (k, v) :: rest =>
    addMeta rest n (if k ≠ "speaker_id" ∧ k ≠ "name" ∧ v ≠ "" then bump2 md k v n else md)

/-- The per-token entry update of `compute_word_stats` (lines 139-147):
increment `total_count` and `speakers[speaker]`, and add the metadata counts
when the speaker is in the directory. -/
def tokenUpd (speakers : Dir) (sp : String) (e : Entry0) : Entry0 :=
  let e := { e with
    total_count := e.total_count + 1,
    speakers := bump e.speakers sp 1 }
  match lookup speakers sp with
  | some meta => { e with metadata := addMeta meta 1 e.metadata }
  | none => e

/-- The body of the token loop of `compute_word_stats` (lines 129-147). -/
def computeStep (speakers : Dir) (stop_words : List String)
    (t : List (String × Entry0)) (wd : Token) : List (String × Entry0) :=
  if clean_word wd.word = "" ∨ clean_word wd.word ∈ stop_words ∨
      (clean_word wd.word).length < 2 then t
  else updateTable t (clean_word wd.word) (tokenUpd speakers wd.speaker)

/-- The final per-entry conversion of `compute_word_stats` (lines 151-157):
copy the counts and add the derived `speaker_count := len(speakers)`. -/
def toFinal (e : Entry0) : WordStatsEntry :=
  ⟨e.total_count, e.speakers.length, e.speakers, e.metadata⟩

/-- The final conversion loop of `compute_word_stats` (lines 149-157), adding
the derived `speaker_count`. -/
def finalize (t : List (String × Entry0)) : Table :=
  t.map (fun we => (we.1, toFinal we.2))

/-- `compute_word_stats` (`data_processor.py` lines 112-159). -/
def compute_word_stats (nltk_english : List String) (words : List Token)
    (speakers : Dir) : Table :=
  let stop_words := get_stop_words nltk_english
  finalize (words.foldl (computeStep speakers stop_words) [])

/-! ## Filtering (`filter_word_stats`) -/

/-- The per-speaker match test of `filter_word_stats` (lines 174-180):
`for field, selected in filters.items(): if selected:
speaker_value = meta.get(field.lower(), ""); if speaker_value not in selected:
matches = False`. -/
def speakerMatches (filters : Filters) (meta : Meta) : Bool :=
  filters.all (fun fs => fs.2.isEmpty || fs.2.contains ((lookup meta (lowerStr fs.1)).getD ""))

/-- The matching-speaker set of `filter_word_stats` (lines 171-182): the
directory speakers passing every selected filter.  The source builds a Python
`set`, used only through membership; a list of names serves the same role. -/
def matching_speakers (speakers : Dir) (filters : Filters) : List String :=
  (speakers.filter (fun sm => speakerMatches filters sm.2)).map Prod.fst

/-- The metadata recomputation loop of `filter_word_stats` (lines 195-200):
for each surviving speaker with its count, re-add its metadata. -/
def buildMeta (speakers : Dir) : List (String × Nat) →
    List (String × List (String × Nat)) → List (String × List (String × Nat))
  | [], md => md
  | sc :: rest, md =>
    buildMeta speakers rest
      (match lookup speakers sc.1 with
       | some meta => addMeta meta sc.2 md
       | none => md)

/-- The per-word body of `filter_word_stats` (lines 186-207): restrict the
speakers dict to the matching set, drop the word when empty, recompute
`total_count` and the metadata counts. -/
def filterEntry (speakers : Dir) (ms : List String) (e : WordStatsEntry) :
    Option WordStatsEntry :=
  let new_speakers := e.speakers.filter (fun sc => ms.contains sc.1)
  if new_speakers.isEmpty then none
  else
    some ⟨sumVals new_speakers, new_speakers.length, new_speakers,
          buildMeta speakers new_speakers []⟩

/-- `filter_word_stats` (`data_processor.py` lines 162-209). -/
def filter_word_stats (word_stats : Table) (speakers : Dir) (filters : Filters) :
    Table :=
  if filters.isEmpty || filters.all (fun fs => fs.2.isEmpty) then word_stats
  else
    let ms := matching_speakers speakers filters
    word_stats.filterMap (fun we => (filterEntry speakers ms we.2).map (we.1, ·))

/-! ## Word frequencies (`get_word_frequencies`) -/

/-- One step of a stable descending insertion sort by `total_count`: the new
element goes after every already-placed element whose count is at least its
own. -/
def insertByCount (x : String × WordStatsEntry) :
    List (String × WordStatsEntry) → List (String × WordStatsEntry)
  | [] => [x]
  | y :: ys =>
    if y.2.total_count < x.2.total_count then x :: y :: ys else y :: insertByCount x ys

/-- `sorted(word_stats.items(), key=lambda x: x[1]["total_count"], reverse=True)`:
Python's `sorted` is a stable sort, here realized as a stable insertion sort
with the same comparison. -/
def sortByCountDesc (l : Table) : Table :=
  l.foldl (fun acc x => insertByCount x acc) []

/-- `get_word_frequencies` (`data_processor.py` lines 212-220): sort by
descending `total_count` (stably), truncate to `top_n` (default 100), and map
each word to its total count. -/
def get_word_frequencies (word_stats : Table) (top_n : Nat) : List (String × Nat) :=
  ((sortByCountDesc word_stats).take top_n).map (fun we => (we.1, we.2.total_count))

/-! ## Sessions (`SessionData`, `session_loader.py`) -/

/-- `SessionData` (`data_processor.py` lines 223-234): one session's name and
its parsed inputs.  Reading and parsing the transcript/CSV files
(`load_transcript`, `load_speakerlist`) are the out-of-scope ingestion
adapters; the already-parsed token list and speaker directory are stored. -/
structure SessionData where
  session_name : String
  words : List Token
  speakers : Dir
  deriving Repr, DecidableEq

/-- `self.word_stats`, computed once at construction from the token stream and
the speaker directory. -/
def SessionData.word_stats (nltk_english : List String) (s : SessionData) : Table :=
  compute_word_stats nltk_english s.words s.speakers

/-- The explicit zero entry returned for an absent word. -/
def zeroEntry : WordStatsEntry := ⟨0, 0, [], []⟩

/-- The `(optionally filtered)` table used by `SessionData.get_word_details`
(lines 260-266): `if filters: stats = filter_word_stats(...) else stats =
self.word_stats`. -/
def sessionFilteredStats (nltk_english : List String) (s : SessionData)
    (filters : Filters) : Table :=
  if !filters.isEmpty then
    filter_word_stats (s.word_stats nltk_english) s.speakers filters
  else s.word_stats nltk_english

/-- `SessionData.get_word_details` (`data_processor.py` lines 260-272):
look up the lower-cased word, returning the explicit zero entry when absent. -/
def SessionData.get_word_details (nltk_english : List String) (s : SessionData)
    (word : String) (filters : Filters) : WordStatsEntry :=
  (lookup (sessionFilteredStats nltk_english s filters) (lowerStr word)).getD zeroEntry

/-! ## Cross-session merging (`SessionManager`, `session_loader.py`) -/

/-- The inner loop of `get_merged_word_stats` (lines 112-123) for one word of
one session: accumulate `total_count`, accumulate the speakers dict keyed by
the session-qualified id `"{session}:{speaker}"`, and accumulate the metadata
counts directly. -/
def mergeUpd (sname : String) (ws : String × WordStatsEntry) (e : Entry0) : Entry0 :=
  { e with
    total_count := e.total_count + ws.2.total_count,
    speakers := ws.2.speakers.foldl
      (fun sp sc => bump sp (sname ++ ":" ++ sc.1) sc.2) e.speakers,
    metadata := ws.2.metadata.foldl
      (fun md kv => kv.2.foldl (fun md vc => bump2 md kv.1 vc.1 vc.2) md) e.metadata }

def mergeWordStep (sname : String) (t : List (String × Entry0))
    (ws : String × WordStatsEntry) : List (String × Entry0) :=
  updateTable t ws.1 (mergeUpd sname ws)

/-- Folding one whole session into the merged accumulator. -/
def mergeSession (nltk_english : List String) (t : List (String × Entry0))
    (s : SessionData) : List (String × Entry0) :=
  (s.word_stats nltk_english).foldl (mergeWordStep s.session_name) t

/-- `SessionManager.get_merged_word_stats` (`session_loader.py` lines
100-135), over the manager's session list. -/
def get_merged_word_stats (nltk_english : List String)
    (sessions : List SessionData) : Table :=
  finalize (sessions.foldl (mergeSession nltk_english) [])

/-- `SessionManager.get_merged_speakers` (`session_loader.py` lines 137-144):
all speakers of all sessions under the session-qualified name, each metadata
dict extended with a `"session"` key. -/
def get_merged_speakers (sessions : List SessionData) : Dir :=
  sessions.foldl
    (fun merged s =>
      s.speakers.foldl
        (fun merged nm =>
          assign merged (s.session_name ++ ":" ++ nm.1) (assign nm.2 "session" s.session_name))
        merged)
    []

/-- The `(optionally filtered)` merged table shared by
`get_merged_frequencies` and `get_merged_word_details` (lines 146-163):
`merged_stats = self.get_merged_word_stats(); if filters: merged_stats =
filter_word_stats(merged_stats, self.get_merged_speakers(), filters)`. -/
def mergedFilteredStats (nltk_english : List String) (sessions : List SessionData)
    (filters : Filters) : Table :=
  let merged_stats := get_merged_word_stats nltk_english sessions
  if !filters.isEmpty then
    filter_word_stats merged_stats (get_merged_speakers sessions) filters
  else merged_stats

/-- `SessionManager.get_merged_frequencies` (`session_loader.py` lines
146-154). -/
def get_merged_frequencies (nltk_english : List String) (sessions : List SessionData)
    (filters : Filters) (top_n : Nat) : List (String × Nat) :=
  get_word_frequencies (mergedFilteredStats nltk_english sessions filters) top_n

/-- `SessionManager.get_merged_word_details` (`session_loader.py` lines
156-169). -/
def get_merged_word_details (nltk_english : List String) (sessions : List SessionData)
    (word : String) (filters : Filters) : WordStatsEntry :=
  (lookup (mergedFilteredStats nltk_english sessions filters) (lowerStr word)).getD zeroEntry

/-! ## Session discovery and caching (`SessionManager`) -/

/-- One discovered session descriptor together with the parsed content of its
two files (the file-system scan of `discover_sessions` and the file parsing
are the out-of-scope ingestion adapters). -/
structure SessionInfo where
  name : String
  words : List Token
  speakers : Dir
  deriving Repr, DecidableEq

/-- `SessionManager` state (`session_loader.py` lines 49-56): the
last-discovered session list and the cache of loaded `SessionData`. -/
structure SessionManager where
  session_info : List SessionInfo
  sessions : List (String × SessionData)
  deriving Repr, DecidableEq

/-- Constructing the `SessionData` for a discovered session (lines 78-82). -/
def buildSession (info : SessionInfo) : SessionData :=
  ⟨info.name, info.words, info.speakers⟩

/-- `SessionManager.refresh` (`session_loader.py` lines 58-63): replace the
discovered list and evict cached sessions whose name is no longer
discoverable.  The rediscovered list is a parameter (the directory scan is the
out-of-scope ingestion adapter). -/
def SessionManager.refresh (m : SessionManager) (discovered : List SessionInfo) :
    SessionManager :=
  { session_info := discovered,
    sessions := m.sessions.filter (fun kv => (discovered.map SessionInfo.name).contains kv.1) }

/-- `SessionManager.get_session` (`session_loader.py` lines 69-84): return the
cached instance when present; otherwise look the name up in the discovered
list, failing with the not-found error (`raise ValueError(f"Session not found:
{session_name}")`, the spec's `NotFoundError`) when absent, and building and
caching the session when found. -/
def SessionManager.get_session (m : SessionManager) (name : String) :
    Except String (SessionData × SessionManager) :=
  match lookup m.sessions name with
  | some sd => .ok (sd, m)
  | none =>
    match m.session_info.find? (fun i => i.name = name) with
    | none => .error ("Session not found: " ++ name)
    | some info =>
      let sd := buildSession info
      .ok (sd, { m with sessions := m.sessions ++ [(name, sd)] })

/-! ## Derived notions used by the specification's properties -/

/-- `sum(T[w].metadata_counts[f].values())`: the value-count sum of one
metadata field of an entry's metadata dict. -/
def metaSum (md : List (String × List (String × Nat))) (f : String) : Nat :=
  sumVals ((lookup md f).getD [])

/-- The value a speaker has for a metadata field, the empty string standing
for a speaker absent from the directory or a field absent from its record. -/
def fieldVal (dir : Dir) (s f : String) : String :=
  (lookup ((lookup dir s).getD []) f).getD ""

/-- Well-formedness of a speaker directory as a Python dict of dicts: each
speaker's metadata dict has no duplicate keys. -/
def WFDir (dir : Dir) : Prop :=
  ∀ nm ∈ dir, (keys nm.2).Nodup

/-- The per-entry invariant of the spec's §3 (claim C1): `total_count` is the
sum of the speakers dict and `speaker_count` its size. -/
def entryInv (e : WordStatsEntry) : Prop :=
  e.total_count = sumVals e.speakers ∧ e.speaker_count = e.speakers.length

/-- C1's invariant for a whole table. -/
def tableInv (t : Table) : Prop :=
  ∀ we ∈ t, entryInv we.2

/-- Strict positivity of every count of an entry (claim C10). -/
def entryPos (e : WordStatsEntry) : Prop :=
  1 ≤ e.total_count ∧ (∀ sc ∈ e.speakers, 1 ≤ sc.2) ∧
    (∀ kv ∈ e.metadata, ∀ vc ∈ kv.2, 1 ≤ vc.2)

/-- C10's positivity for a whole table. -/
def tablePos (t : Table) : Prop :=
  ∀ we ∈ t, entryPos we.2

/-- The per-entry metadata-sum property of the spec's §3 (claim C4) for one
field `f`: the field's value counts sum to at most `total_count`, with
equality when every contributing speaker has a non-empty value for `f`. -/
def entryFieldOk (dir : Dir) (f : String) (e : WordStatsEntry) : Prop :=
  metaSum e.metadata f ≤ e.total_count ∧
    ((∀ s ∈ keys e.speakers, fieldVal dir s f ≠ "") →
      metaSum e.metadata f = e.total_count)

/-- C4's property for a whole table. -/
def tableFieldOk (dir : Dir) (f : String) (t : Table) : Prop :=
  ∀ we ∈ t, entryFieldOk dir f we.2

/-- `T[w].total_count`, with 0 for an absent word. -/
def lookupTotal (t : Table) (w : String) : Nat :=
  ((lookup t w).map WordStatsEntry.total_count).getD 0

/-- `lookupTotal` on a not-yet-finalized table. -/
def lookupTotal0 (t : List (String × Entry0)) (w : String) : Nat :=
  ((lookup t w).map Entry0.total_count).getD 0

instance instDecEntryInv (e : WordStatsEntry) : Decidable (entryInv e) := by
  unfold entryInv
  infer_instance

instance instDecTableInv (t : Table) : Decidable (tableInv t) := by
  unfold tableInv
  infer_instance

instance instDecEntryPos (e : WordStatsEntry) : Decidable (entryPos e) := by
  unfold entryPos
  infer_instance

instance instDecTablePos (t : Table) : Decidable (tablePos t) := by
  unfold tablePos
  infer_instance

instance instDecWFDir (dir : Dir) : Decidable (WFDir dir) := by
  unfold WFDir
  infer_instance

instance instDecEntryFieldOk (dir : Dir) (f : String) (e : WordStatsEntry) :
    Decidable (entryFieldOk dir f e) := by
  unfold entryFieldOk
  infer_instance

instance instDecTableFieldOk (dir : Dir) (f : String) (t : Table) :
    Decidable (tableFieldOk dir f t) := by
  unfold tableFieldOk
  infer_instance

/-- The matching predicate of the amended claim C2, written from the spec's
words: a speaker matches iff it is present in the speaker directory and, for
every field of the filter with a non-empty allowed-value set, its stored value
for that field (the empty string when absent) is a member of the allowed set. -/
def specMatches (dir : Dir) (F : Filters) (s : String) : Prop :=
  ∃ meta, lookup dir s = some meta ∧
    ∀ fs ∈ F, fs.2 ≠ [] → (lookup meta (lowerStr fs.1)).getD "" ∈ fs.2

instance instDecSpecMatches (dir : Dir) (F : Filters) (s : String) :
    Decidable (specMatches dir F s) :=
  match h : lookup dir s with
  | none => isFalse (by rintro ⟨meta, hm, _⟩; rw [h] at hm; exact Option.noConfusion hm)
  | some m =>
    decidable_of_iff
      (∀ fs ∈ F, fs.2 ≠ [] → (lookup m (lowerStr fs.1)).getD "" ∈ fs.2)
      (by
        constructor
        · intro hp
          exact ⟨m, h, hp⟩
        · rintro ⟨m2, hm2, hp⟩
          rw [h] at hm2
          exact (Option.some.inj hm2).symm ▸ hp)

/-- A filter with no field carrying a non-empty allowed-value set (the no-op
case of `filter_word_stats`, lines 168-169). -/
def trivialFilter (F : Filters) : Bool :=
  F.isEmpty || F.all (fun fs => fs.2.isEmpty)

/-- The spec-side per-word filtering of the amended claim C2: restrict the
speakers dict to the matching speakers, drop the word when nothing remains,
recompute `total_count` as the sum of the restricted counts (and the metadata
from the restricted speakers). -/
def specFilterEntry (dir : Dir) (F : Filters) (e : WordStatsEntry) :
    Option WordStatsEntry :=
  let restricted := e.speakers.filter (fun sc => decide (specMatches dir F sc.1))
  if restricted.isEmpty then none
  else
    some ⟨sumVals restricted, restricted.length, restricted,
          buildMeta dir restricted []⟩

/-- The spec-side table filtering of the amended claim C2. -/
def specFilter (T : Table) (dir : Dir) (F : Filters) : Table :=
  if trivialFilter F then T
  else T.filterMap (fun we => (specFilterEntry dir F we.2).map (we.1, ·))


/-- A session-qualified speaker key: `"{session}:{speaker}"` for one of the
given sessions. -/
def qualKey (sessions : List SessionData) (k : String) : Prop :=
  ∃ s ∈ sessions, ∃ sp, k = s.session_name ++ ":" ++ sp


/-- The reachable-state invariant of `SessionManager`: every cached session
name was discovered (established by `refresh`, preserved by `get_session`). -/
def SessionManager.inv (m : SessionManager) : Prop :=
  ∀ kv ∈ m.sessions, kv.1 ∈ m.session_info.map SessionInfo.name


instance instDecManagerInv (m : SessionManager) : Decidable (m.inv) := by
  unfold SessionManager.inv
  infer_instance

/-! ## Concrete data used by the witnesses and counterexamples -/

/-- A two-speaker directory (`role` field `eng`/`pm`), spec §8 scenario. -/
def dirW : Dir :=
  [("A", [("speaker_id", "A"), ("name", "A"), ("role", "eng")]),
   ("B", [("speaker_id", "B"), ("name", "B"), ("role", "pm")])]

/-- A small token stream over `dirW` (speaker `C` absent from the directory). -/
def tokensW : List Token :=
  [⟨"hello", "A"⟩, ⟨"hello", "B"⟩, ⟨"world", "C"⟩]

/-- A small well-formed word-statistics table over `dirW`. -/
def TW : Table :=
  [("hello", ⟨5, 2, [("A", 3), ("B", 2)], [("role", [("eng", 3), ("pm", 2)])]⟩)]

/-- A filter selecting `role = eng`. -/
def FW : Filters := [("role", ["eng"])]

/-- Two sessions each containing a speaker named `A` (different roles) who
utters `hello` once: the cross-session identity scenario of the spec's §8. -/
def sessionA1 : SessionData :=
  ⟨"s1", [⟨"hello", "A"⟩], [("A", [("speaker_id", "A"), ("name", "A"), ("role", "eng")])]⟩

/-- Second session of the cross-session identity scenario. -/
def sessionA2 : SessionData :=
  ⟨"s2", [⟨"hello", "A"⟩], [("A", [("speaker_id", "A"), ("name", "A"), ("role", "pm")])]⟩

/-- A discovered session for the cache scenario. -/
def infoW : SessionInfo :=
  ⟨"s1", [⟨"hello", "A"⟩], [("A", [("speaker_id", "A"), ("name", "A"), ("role", "eng")])]⟩

/-- A manager that has discovered `infoW` and cached nothing yet. -/
def mW : SessionManager := ⟨[infoW], []⟩

/-- A directory whose only speaker has an empty `role` value. -/
def dirCE : Dir := [("A", [("speaker_id", "A"), ("name", "A"), ("role", "")])]

/-- A table whose word `hello` is spoken once, by the empty-role speaker. -/
def TCE : Table := [("hello", ⟨1, 1, [("A", 1)], []⟩)]

/-- A table whose word `hello` is spoken once, by a speaker absent from
`dirCE`. -/
def TCE2 : Table := [("hello", ⟨1, 1, [("B", 1)], []⟩)]

/-- A filter whose allowed-value set for `role` contains the empty string. -/
def FCE : Filters := [("role", [""])]

/-! ## Dict lemmas -/

theorem lookup_eq_none_iff {β : Type} (m : List (String × β)) (k : String) :
    lookup m k = none ↔ k ∉ keys m := by
  induction m with
  | nil => simp [lookup, keys]
  | cons p rest ih =>
    obtain ⟨k₂, v⟩ := p
    by_cases h : k₂ = k
    · simp [lookup, keys, h]
    · have hne : ¬k = k₂ := fun hh => h hh.symm
      simp only [lookup, if_neg h, keys, List.map_cons, List.mem_cons, ih, keys]
      tauto

theorem lookup_mem {β : Type} {m : List (String × β)} {k : String} {v : β}
    (h : lookup m k = some v) : (k, v) ∈ m := by
  induction m with
  | nil => simp [lookup] at h
  | cons p rest ih =>
    obtain ⟨k₂, w⟩ := p
    by_cases hk : k₂ = k
    · simp only [lookup, if_pos hk] at h
      obtain rfl : w = v := Option.some.inj h
      subst hk
      exact List.mem_cons_self _ _
    · simp only [lookup, if_neg hk] at h
      exact List.mem_cons_of_mem _ (ih h)

theorem mem_keys_of_lookup {β : Type} {m : List (String × β)} {k : String} {v : β}
    (h : lookup m k = some v) : k ∈ keys m := by
  have := lookup_mem h
  exact List.mem_map.2 ⟨(k, v), this, rfl⟩

theorem lookup_eq_some_of_mem_nodup {β : Type} {m : List (String × β)}
    (hnd : (keys m).Nodup) {k : String} {v : β} (h : (k, v) ∈ m) :
    lookup m k = some v := by
  induction m with
  | nil => simp at h
  | cons p rest ih =>
    obtain ⟨k₂, w⟩ := p
    rcases List.mem_cons.1 h with h1 | h1
    · obtain ⟨rfl, rfl⟩ := Prod.mk.injEq .. ▸ h1
      simp [lookup]
    · have hk : k₂ ≠ k := by
        rintro rfl
        exact (List.nodup_cons.1 hnd).1 (List.mem_map.2 ⟨(k₂, v), h1, rfl⟩)
      simpa [lookup, hk] using ih (List.nodup_cons.1 hnd).2 h1

theorem sumVals_bump (m : List (String × Nat)) (k : String) (n : Nat) :
    sumVals (bump m k n) = sumVals m + n := by
  induction m with
  | nil => simp [bump, sumVals]
  | cons p rest ih =>
    obtain ⟨k₂, v⟩ := p
    by_cases h : k₂ = k
    · simp [bump, sumVals, h]
      omega
    · simp only [bump, if_neg h]
      simp [sumVals] at ih ⊢
      omega

theorem mem_bump {m : List (String × Nat)} {k : String} {n : Nat} {p : String × Nat}
    (h : p ∈ bump m k n) : p ∈ m ∨ p.1 = k := by
  induction m with
  | nil => simpa [bump] using congrArg Prod.fst (List.mem_singleton.1 h)
  | cons q rest ih =>
    obtain ⟨k₂, v⟩ := q
    by_cases hk : k₂ = k
    · simp only [bump, if_pos hk] at h
      rcases List.mem_cons.1 h with h1 | h1
      · exact Or.inr (h1 ▸ hk)
      · exact Or.inl (List.mem_cons_of_mem _ h1)
    · simp only [bump, if_neg hk] at h
      rcases List.mem_cons.1 h with h1 | h1
      · exact Or.inl (h1 ▸ List.mem_cons_self _ _)
      · rcases ih h1 with h2 | h2
        · exact Or.inl (List.mem_cons_of_mem _ h2)
        · exact Or.inr h2

theorem bump_pos {m : List (String × Nat)} {k : String} {n : Nat}
    (hm : ∀ p ∈ m, 1 ≤ p.2) (hn : 1 ≤ n) : ∀ p ∈ bump m k n, 1 ≤ p.2 := by
  induction m with
  | nil =>
    intro p hp
    obtain rfl := List.mem_singleton.1 hp
    exact hn
  | cons q rest ih =>
    obtain ⟨k₂, v⟩ := q
    intro p hp
    by_cases hk : k₂ = k
    · simp only [bump, if_pos hk] at hp
      rcases List.mem_cons.1 hp with h1 | h1
      · have := hm (k₂, v) (List.mem_cons_self _ _)
        simp at this
        subst h1
        simp
        omega
      · exact hm p (List.mem_cons_of_mem _ h1)
    · simp only [bump, if_neg hk] at hp
      rcases List.mem_cons.1 hp with h1 | h1
      · exact hm p (h1 ▸ List.mem_cons_self _ _)
      · exact ih (fun q hq => hm q (List.mem_cons_of_mem _ hq)) p h1

theorem sumVals_cons (p : String × Nat) (l : List (String × Nat)) :
    sumVals (p :: l) = p.2 + sumVals l := by
  simp [sumVals]

theorem sumVals_filter_le (p : String × Nat → Bool) (l : List (String × Nat)) :
    sumVals (l.filter p) ≤ sumVals l := by
  induction l with
  | nil => simp [sumVals]
  | cons q rest ih =>
    rw [List.filter_cons]
    split
    · rw [sumVals_cons, sumVals_cons]
      omega
    · rw [sumVals_cons]
      omega

theorem one_le_sumVals {l : List (String × Nat)} (hne : l ≠ [])
    (h : ∀ sc ∈ l, 1 ≤ sc.2) : 1 ≤ sumVals l := by
  cases l with
  | nil => exact absurd rfl hne
  | cons q rest =>
    rw [sumVals_cons]
    have := h q (List.mem_cons_self _ _)
    omega

theorem metaSum_bump2 (md : List (String × List (String × Nat)))
    (k v : String) (n : Nat) (f : String) :
    metaSum (bump2 md k v n) f = metaSum md f + (if k = f then n else 0) := by
  induction md with
  | nil =>
    by_cases hf : k = f <;> simp [bump2, metaSum, lookup, hf, sumVals]
  | cons q rest ih =>
    obtain ⟨k₂, mv⟩ := q
    by_cases hk : k₂ = k
    · subst hk
      by_cases hf : k₂ = f
      · subst hf
        simp [bump2, metaSum, lookup, sumVals_bump]
      · simp [bump2, metaSum, lookup, hf]
    · by_cases hf : k₂ = f
      · subst hf
        have : ¬k = k₂ := fun hh => hk hh.symm
        simp [bump2, metaSum, lookup, hk, this]
      · simp only [bump2, if_neg hk]
        simp only [metaSum, lookup, if_neg hf] at ih ⊢
        exact ih

theorem bump2_pos {md : List (String × List (String × Nat))} {k v : String} {n : Nat}
    (hmd : ∀ kv ∈ md, ∀ vc ∈ kv.2, 1 ≤ vc.2) (hn : 1 ≤ n) :
    ∀ kv ∈ bump2 md k v n, ∀ vc ∈ kv.2, 1 ≤ vc.2 := by
  induction md with
  | nil =>
    intro kv hkv
    obtain rfl := List.mem_singleton.1 hkv
    intro vc hvc
    obtain rfl := List.mem_singleton.1 hvc
    exact hn
  | cons q rest ih =>
    obtain ⟨k₂, mv⟩ := q
    intro kv hkv
    by_cases hk : k₂ = k
    · simp only [bump2, if_pos hk] at hkv
      rcases List.mem_cons.1 hkv with h1 | h1
      · subst h1
        exact bump_pos (hmd (k₂, mv) (List.mem_cons_self _ _)) hn
      · exact hmd kv (List.mem_cons_of_mem _ h1)
    · simp only [bump2, if_neg hk] at hkv
      rcases List.mem_cons.1 hkv with h1 | h1
      · exact h1 ▸ hmd (k₂, mv) (List.mem_cons_self _ _)
      · exact ih (fun q hq => hmd q (List.mem_cons_of_mem _ hq)) kv h1

theorem metaSum_addMeta {f : String} (hf1 : f ≠ "speaker_id") (hf2 : f ≠ "name") :
    ∀ (meta : Meta) (n : Nat) (md : List (String × List (String × Nat))),
    (keys meta).Nodup →
    metaSum (addMeta meta n md) f =
      metaSum md f + (if (lookup meta f).getD "" ≠ "" then n else 0) := by
  intro meta
  induction meta with
  | nil => simp [addMeta, lookup]
  | cons q rest ih =>
    obtain ⟨k, v⟩ := q
    intro n md hnd
    have hnd2 : (keys rest).Nodup := (List.nodup_cons.1 (by simpa [keys] using hnd)).2
    by_cases hk : k = f
    · subst hk
      have hrest : lookup rest k = none := by
        rw [lookup_eq_none_iff]
        exact (List.nodup_cons.1 (by simpa [keys] using hnd)).1
      by_cases hv : v = ""
      · simp only [addMeta, lookup, if_pos rfl]
        rw [if_neg (by simp [hv])]
        rw [ih n md hnd2, hrest]
        simp [hv]
      · simp only [addMeta, lookup, if_pos rfl]
        rw [if_pos ⟨hf1, hf2, hv⟩]
        rw [ih n _ hnd2, hrest, metaSum_bump2, if_pos rfl]
        simp [hv]
    · simp only [addMeta, lookup, if_neg hk]
      split
      · rw [ih n _ hnd2, metaSum_bump2, if_neg hk]
        omega
      · exact ih n md hnd2

theorem addMeta_pos {md : List (String × List (String × Nat))} {n : Nat}
    (hmd : ∀ kv ∈ md, ∀ vc ∈ kv.2, 1 ≤ vc.2) (hn : 1 ≤ n) (meta : Meta) :
    ∀ kv ∈ addMeta meta n md, ∀ vc ∈ kv.2, 1 ≤ vc.2 := by
  induction meta generalizing md with
  | nil => exact hmd
  | cons q rest ih =>
    obtain ⟨k, v⟩ := q
    simp only [addMeta]
    split
    · exact ih (bump2_pos hmd hn)
    · exact ih hmd

theorem metaSum_buildMeta {f : String} (hf1 : f ≠ "speaker_id") (hf2 : f ≠ "name")
    {dir : Dir} (hdir : WFDir dir) :
    ∀ (l : List (String × Nat)) (md : List (String × List (String × Nat))),
    metaSum (buildMeta dir l md) f =
      metaSum md f + (l.map (fun sc => if fieldVal dir sc.1 f ≠ "" then sc.2 else 0)).sum := by
  intro l
  induction l with
  | nil => simp [buildMeta]
  | cons sc rest ih =>
    intro md
    simp only [buildMeta]
    cases hsp : lookup dir sc.1 with
    | none =>
      have hfv : fieldVal dir sc.1 f = "" := by simp [fieldVal, hsp, lookup]
      rw [ih md]
      simp [hfv]
    | some meta =>
      have hmeta : (keys meta).Nodup := hdir (sc.1, meta) (lookup_mem hsp)
      have hfv : fieldVal dir sc.1 f = (lookup meta f).getD "" := by
        simp [fieldVal, hsp]
      rw [ih _, metaSum_addMeta hf1 hf2 meta sc.2 md hmeta]
      simp only [List.map_cons, List.sum_cons, hfv]
      split <;> omega

theorem buildMeta_pos {dir : Dir} {md : List (String × List (String × Nat))}
    (hmd : ∀ kv ∈ md, ∀ vc ∈ kv.2, 1 ≤ vc.2) {l : List (String × Nat)}
    (hl : ∀ sc ∈ l, 1 ≤ sc.2) :
    ∀ kv ∈ buildMeta dir l md, ∀ vc ∈ kv.2, 1 ≤ vc.2 := by
  induction l generalizing md with
  | nil => exact hmd
  | cons sc rest ih =>
    simp only [buildMeta]
    have hrest : ∀ q ∈ rest, 1 ≤ q.2 := fun q hq => hl q (List.mem_cons_of_mem _ hq)
    cases hsp : lookup dir sc.1 with
    | none => exact ih hmd hrest
    | some meta =>
      exact ih (addMeta_pos hmd (hl sc (List.mem_cons_self _ _)) meta) hrest

theorem foldl_pres_mem {α β : Type} {P : β → Prop} {step : β → α → β} :
    ∀ {l : List α}, (∀ b a, a ∈ l → P b → P (step b a)) →
    ∀ {b : β}, P b → P (l.foldl step b) := by
  intro l
  induction l with
  | nil => intro _ b hb; exact hb
  | cons a rest ih =>
    intro h b hb
    exact ih (fun b' a' ha' => h b' a' (List.mem_cons_of_mem _ ha'))
      (h b a (List.mem_cons_self _ _) hb)

theorem updateTable_pres {P : Entry0 → Prop} {t : List (String × Entry0)}
    {w : String} {f : Entry0 → Entry0} (ht : ∀ we ∈ t, P we.2)
    (hf : ∀ e, P e → P (f e)) (hinit : P (f Entry0.init)) :
    ∀ we ∈ updateTable t w f, P we.2 := by
  induction t with
  | nil =>
    intro we hwe
    obtain rfl := List.mem_singleton.1 hwe
    exact hinit
  | cons p rest ih =>
    obtain ⟨k, e⟩ := p
    intro we hwe
    by_cases hk : k = w
    · simp only [updateTable, if_pos hk] at hwe
      rcases List.mem_cons.1 hwe with h1 | h1
      · exact h1 ▸ hf e (ht (k, e) (List.mem_cons_self _ _))
      · exact ht we (List.mem_cons_of_mem _ h1)
    · simp only [updateTable, if_neg hk] at hwe
      rcases List.mem_cons.1 hwe with h1 | h1
      · exact h1 ▸ ht (k, e) (List.mem_cons_self _ _)
      · exact ih (fun q hq => ht q (List.mem_cons_of_mem _ hq)) we h1

theorem lookup_updateTable_self (t : List (String × Entry0)) (w : String)
    (f : Entry0 → Entry0) :
    lookup (updateTable t w f) w = some (f ((lookup t w).getD Entry0.init)) := by
  induction t with
  | nil => simp [updateTable, lookup]
  | cons p rest ih =>
    obtain ⟨k, e⟩ := p
    by_cases hk : k = w
    · simp [updateTable, lookup, hk]
    · simp [updateTable, lookup, hk, ih]

theorem lookup_updateTable_ne {t : List (String × Entry0)} {w w' : String}
    (f : Entry0 → Entry0) (h : w' ≠ w) :
    lookup (updateTable t w' f) w = lookup t w := by
  induction t with
  | nil => simp [updateTable, lookup, h]
  | cons p rest ih =>
    obtain ⟨k, e⟩ := p
    by_cases hk : k = w'
    · simp [updateTable, lookup, hk, h]
    · have h2 : ¬w = w' := fun hh => h hh.symm
      by_cases hkw : k = w
      · simp [updateTable, lookup, hk, hkw, h2]
      · simp [updateTable, lookup, hk, hkw, ih]

theorem keys_updateTable (t : List (String × Entry0)) (w : String)
    (f : Entry0 → Entry0) :
    keys (updateTable t w f) = if w ∈ keys t then keys t else keys t ++ [w] := by
  induction t with
  | nil => simp [updateTable, keys]
  | cons p rest ih =>
    obtain ⟨k, e⟩ := p
    by_cases hk : k = w
    · simp [updateTable, keys, hk]
    · have hne : ¬w = k := fun hh => hk hh.symm
      simp only [keys] at ih
      simp only [updateTable, if_neg hk, keys, List.map_cons]
      rw [ih]
      by_cases hw : w ∈ List.map Prod.fst rest
      · simp [hw, hne]
      · simp [hw, hne]

theorem nodup_keys_updateTable {t : List (String × Entry0)} {w : String}
    {f : Entry0 → Entry0} (h : (keys t).Nodup) :
    (keys (updateTable t w f)).Nodup := by
  rw [keys_updateTable]
  split
  · exact h
  · next hw => simp [List.nodup_append, h, hw]

theorem lookup_finalize (t : List (String × Entry0)) (w : String) :
    lookup (finalize t) w = (lookup t w).map toFinal := by
  induction t with
  | nil => simp [finalize, lookup]
  | cons p rest ih =>
    obtain ⟨k, e⟩ := p
    by_cases hk : k = w
    · simp [finalize, lookup, hk]
    · simp [finalize, lookup, hk] at ih ⊢
      exact ih

theorem keys_finalize (t : List (String × Entry0)) : keys (finalize t) = keys t := by
  simp [keys, finalize, List.map_map]

theorem mem_finalize {t : List (String × Entry0)} {we : String × WordStatsEntry} :
    we ∈ finalize t ↔ ∃ e0 ∈ t, we = (e0.1, toFinal e0.2) := by
  constructor
  · intro h
    obtain ⟨e0, h1, h2⟩ := List.mem_map.1 h
    exact ⟨e0, h1, h2.symm⟩
  · rintro ⟨e0, h1, rfl⟩
    exact List.mem_map.2 ⟨e0, h1, rfl⟩

/-! ## `tokenUpd` facts -/

theorem tokenUpd_total (d : Dir) (sp : String) (e : Entry0) :
    (tokenUpd d sp e).total_count = e.total_count + 1 := by
  cases h : lookup d sp <;> simp [tokenUpd, h]

theorem tokenUpd_speakers (d : Dir) (sp : String) (e : Entry0) :
    (tokenUpd d sp e).speakers = bump e.speakers sp 1 := by
  cases h : lookup d sp <;> simp [tokenUpd, h]

theorem tokenUpd_metadata_none {d : Dir} {sp : String} (e : Entry0)
    (h : lookup d sp = none) : (tokenUpd d sp e).metadata = e.metadata := by
  simp [tokenUpd, h]

theorem tokenUpd_metadata_some {d : Dir} {sp : String} {meta : Meta} (e : Entry0)
    (h : lookup d sp = some meta) :
    (tokenUpd d sp e).metadata = addMeta meta 1 e.metadata := by
  simp [tokenUpd, h]

theorem keys_bump_mono {m : List (String × Nat)} {k' : String} (k : String) (n : Nat)
    (h : k' ∈ keys m) : k' ∈ keys (bump m k n) := by
  induction m with
  | nil => simp [keys] at h
  | cons p rest ih =>
    obtain ⟨k₂, v⟩ := p
    by_cases hk : k₂ = k
    · simpa [bump, keys, hk] using (by simpa [keys, hk] using h)
    · rcases (by simpa [keys] using h : k' = k₂ ∨ k' ∈ keys rest) with h1 | h1
      · simp [bump, keys, hk, h1]
      · simp only [bump, if_neg hk, keys, List.map_cons, List.mem_cons]
        exact Or.inr (ih h1)

theorem self_mem_keys_bump (m : List (String × Nat)) (k : String) (n : Nat) :
    k ∈ keys (bump m k n) := by
  induction m with
  | nil => simp [bump, keys]
  | cons p rest ih =>
    obtain ⟨k₂, v⟩ := p
    by_cases hk : k₂ = k
    · simp [bump, keys, hk]
    · simp only [bump, if_neg hk, keys, List.map_cons, List.mem_cons]
      exact Or.inr ih

/-! ## `compute_word_stats` invariants -/

theorem compute_fold_pres {P : Entry0 → Prop} {dir : Dir} {stop : List String}
    (hP : ∀ sp e, P e → P (tokenUpd dir sp e)) (hinit : ∀ sp, P (tokenUpd dir sp Entry0.init))
    (words : List Token) :
    ∀ we ∈ words.foldl (computeStep dir stop) [], P we.2 := by
  have main : ∀ (l : List Token) (t : List (String × Entry0)),
      (∀ we ∈ t, P we.2) → ∀ we ∈ l.foldl (computeStep dir stop) t, P we.2 := by
    intro l
    induction l with
    | nil => intro t ht; exact ht
    | cons wd rest ih =>
      intro t ht
      apply ih
      unfold computeStep
      split
      · exact ht
      · exact updateTable_pres ht (hP wd.speaker) (hinit wd.speaker)
  exact main words [] (by simp)

theorem compute_tableInv (nltk : List String) (words : List Token) (dir : Dir) :
    tableInv (compute_word_stats nltk words dir) := by
  intro we hwe
  unfold compute_word_stats at hwe
  obtain ⟨e0, he0, rfl⟩ := mem_finalize.1 hwe
  have key : e0.2.total_count = sumVals e0.2.speakers := by
    refine compute_fold_pres (P := fun e => e.total_count = sumVals e.speakers)
      ?_ ?_ words e0 he0
    · intro sp e he
      rw [tokenUpd_total, tokenUpd_speakers, sumVals_bump, he]
    · intro sp
      rw [tokenUpd_total, tokenUpd_speakers, sumVals_bump]
      simp [Entry0.init, sumVals]
  exact ⟨key, rfl⟩

theorem compute_tablePos (nltk : List String) (words : List Token) (dir : Dir) :
    tablePos (compute_word_stats nltk words dir) := by
  intro we hwe
  unfold compute_word_stats at hwe
  obtain ⟨e0, he0, rfl⟩ := mem_finalize.1 hwe
  have hstep : ∀ (sp : String) (e : Entry0),
      ((∀ sc ∈ e.speakers, 1 ≤ sc.2) ∧ (∀ kv ∈ e.metadata, ∀ vc ∈ kv.2, 1 ≤ vc.2)) →
      (1 ≤ (tokenUpd dir sp e).total_count ∧
        (∀ sc ∈ (tokenUpd dir sp e).speakers, 1 ≤ sc.2) ∧
        (∀ kv ∈ (tokenUpd dir sp e).metadata, ∀ vc ∈ kv.2, 1 ≤ vc.2)) := by
    intro sp e he
    refine ⟨by rw [tokenUpd_total]; omega, ?_, ?_⟩
    · rw [tokenUpd_speakers]
      exact bump_pos he.1 le_rfl
    · cases h : lookup dir sp with
      | none => rw [tokenUpd_metadata_none e h]; exact he.2
      | some meta => rw [tokenUpd_metadata_some e h]; exact addMeta_pos he.2 le_rfl meta
  have key : 1 ≤ e0.2.total_count ∧ (∀ sc ∈ e0.2.speakers, 1 ≤ sc.2) ∧
      (∀ kv ∈ e0.2.metadata, ∀ vc ∈ kv.2, 1 ≤ vc.2) := by
    refine compute_fold_pres
      (P := fun e => 1 ≤ e.total_count ∧ (∀ sc ∈ e.speakers, 1 ≤ sc.2) ∧
        (∀ kv ∈ e.metadata, ∀ vc ∈ kv.2, 1 ≤ vc.2)) ?_ ?_ words e0 he0
    · intro sp e he
      exact hstep sp e ⟨he.2.1, he.2.2⟩
    · intro sp
      exact hstep sp Entry0.init ⟨by simp [Entry0.init], by simp [Entry0.init]⟩
  exact key

theorem compute_keys_nodup (nltk : List String) (words : List Token) (dir : Dir) :
    (keys (compute_word_stats nltk words dir)).Nodup := by
  unfold compute_word_stats
  rw [keys_finalize]
  refine foldl_pres_mem (P := fun t => (keys t).Nodup) ?_ ?_
  · intro t wd _ ht
    unfold computeStep
    split
    · exact ht
    · exact nodup_keys_updateTable ht
  · simp [keys]

theorem compute_tableFieldOk {f : String} (hf1 : f ≠ "speaker_id") (hf2 : f ≠ "name")
    {dir : Dir} (hdir : WFDir dir) (nltk : List String) (words : List Token) :
    tableFieldOk dir f (compute_word_stats nltk words dir) := by
  intro we hwe
  unfold compute_word_stats at hwe
  obtain ⟨e0, he0, rfl⟩ := mem_finalize.1 hwe
  have hstep : ∀ (sp : String) (e : Entry0),
      (metaSum e.metadata f ≤ e.total_count ∧
        ((∀ s ∈ keys e.speakers, fieldVal dir s f ≠ "") →
          metaSum e.metadata f = e.total_count)) →
      (metaSum (tokenUpd dir sp e).metadata f ≤ (tokenUpd dir sp e).total_count ∧
        ((∀ s ∈ keys (tokenUpd dir sp e).speakers, fieldVal dir s f ≠ "") →
          metaSum (tokenUpd dir sp e).metadata f = (tokenUpd dir sp e).total_count)) := by
    intro sp e he
    rw [tokenUpd_total]
    cases h : lookup dir sp with
    | none =>
      rw [tokenUpd_metadata_none e h]
      constructor
      · omega
      · intro hall
        have hsp : fieldVal dir sp f ≠ "" := by
          apply hall
          rw [tokenUpd_speakers]
          exact self_mem_keys_bump _ _ _
        exact absurd (by simp [fieldVal, h, lookup]) hsp
    | some meta =>
      have hmeta : (keys meta).Nodup := hdir (sp, meta) (lookup_mem h)
      rw [tokenUpd_metadata_some e h,
        metaSum_addMeta hf1 hf2 meta 1 e.metadata hmeta]
      constructor
      · have := he.1
        split <;> omega
      · intro hall
        have hsub : ∀ s ∈ keys e.speakers, fieldVal dir s f ≠ "" := by
          intro s hs
          apply hall
          rw [tokenUpd_speakers]
          exact keys_bump_mono sp 1 hs
        have hsp : fieldVal dir sp f ≠ "" := by
          apply hall
          rw [tokenUpd_speakers]
          exact self_mem_keys_bump _ _ _
        have hv : (lookup meta f).getD "" ≠ "" := by
          simpa [fieldVal, h] using hsp
        rw [if_pos hv, he.2 hsub]
  have key := compute_fold_pres
    (P := fun e => metaSum e.metadata f ≤ e.total_count ∧
      ((∀ s ∈ keys e.speakers, fieldVal dir s f ≠ "") →
        metaSum e.metadata f = e.total_count))
    (fun sp e he => hstep sp e he)
    (fun sp => hstep sp Entry0.init (by simp [Entry0.init, metaSum, lookup, sumVals]))
    words e0 he0
  exact key

/-! ## `filter_word_stats` invariants -/

theorem filterEntry_eq_some {dir : Dir} {ms : List String} {e e' : WordStatsEntry}
    (h : filterEntry dir ms e = some e') :
    e.speakers.filter (fun sc => ms.contains sc.1) ≠ [] ∧
    e' = ⟨sumVals (e.speakers.filter (fun sc => ms.contains sc.1)),
          (e.speakers.filter (fun sc => ms.contains sc.1)).length,
          e.speakers.filter (fun sc => ms.contains sc.1),
          buildMeta dir (e.speakers.filter (fun sc => ms.contains sc.1)) []⟩ := by
  simp only [filterEntry] at h
  by_cases hns : (e.speakers.filter (fun sc => ms.contains sc.1)).isEmpty
  · rw [if_pos hns] at h
    exact absurd h (by simp)
  · rw [if_neg hns] at h
    exact ⟨by simpa [List.isEmpty_iff] using hns, (Option.some.inj h).symm⟩

theorem mem_filter_main {T : Table} {dir : Dir} {F : Filters}
    {we' : String × WordStatsEntry}
    (hc : (F.isEmpty || F.all fun fs => fs.2.isEmpty) = false)
    (h : we' ∈ filter_word_stats T dir F) :
    ∃ we ∈ T, we'.1 = we.1 ∧
      filterEntry dir (matching_speakers dir F) we.2 = some we'.2 := by
  unfold filter_word_stats at h
  rw [if_neg (by simp [hc])] at h
  obtain ⟨we, hwe, hmap⟩ := List.mem_filterMap.1 h
  obtain ⟨e', he', heq⟩ := Option.map_eq_some'.1 hmap
  exact ⟨we, hwe, by rw [← heq], by rw [← heq]; exact he'⟩

theorem filter_tableInv {T : Table} (dir : Dir) (F : Filters) (hT : tableInv T) :
    tableInv (filter_word_stats T dir F) := by
  by_cases hc : (F.isEmpty || F.all fun fs => fs.2.isEmpty) = true
  · unfold filter_word_stats
    rw [if_pos (by simp [hc])]
    exact hT
  · intro we' hwe'
    obtain ⟨we, hwe, h1, h2⟩ :=
      mem_filter_main (Bool.not_eq_true _ ▸ hc) hwe'
    obtain ⟨hne, heq⟩ := filterEntry_eq_some h2
    rw [heq]
    exact ⟨rfl, rfl⟩

theorem filter_tablePos {T : Table} (dir : Dir) (F : Filters) (hT : tablePos T) :
    tablePos (filter_word_stats T dir F) := by
  by_cases hc : (F.isEmpty || F.all fun fs => fs.2.isEmpty) = true
  · unfold filter_word_stats
    rw [if_pos (by simp [hc])]
    exact hT
  · intro we' hwe'
    obtain ⟨we, hwe, h1, h2⟩ :=
      mem_filter_main (Bool.not_eq_true _ ▸ hc) hwe'
    obtain ⟨hne, heq⟩ := filterEntry_eq_some h2
    have hpos := hT we hwe
    have hsub : ∀ sc ∈ we.2.speakers.filter (fun sc => (matching_speakers dir F).contains sc.1),
        1 ≤ sc.2 := by
      intro sc hsc
      exact hpos.2.1 sc (List.mem_filter.1 hsc).1
    rw [heq]
    refine ⟨one_le_sumVals hne hsub, hsub, ?_⟩
    exact buildMeta_pos (by simp) hsub

theorem filter_tableFieldOk {f : String} (hf1 : f ≠ "speaker_id") (hf2 : f ≠ "name")
    {dir : Dir} (hdir : WFDir dir) {T : Table} (F : Filters)
    (hT : tableFieldOk dir f T) :
    tableFieldOk dir f (filter_word_stats T dir F) := by
  by_cases hc : (F.isEmpty || F.all fun fs => fs.2.isEmpty) = true
  · unfold filter_word_stats
    rw [if_pos (by simp [hc])]
    exact hT
  · intro we' hwe'
    obtain ⟨we, hwe, h1, h2⟩ :=
      mem_filter_main (Bool.not_eq_true _ ▸ hc) hwe'
    obtain ⟨hne, heq⟩ := filterEntry_eq_some h2
    rw [heq]
    set ns := we.2.speakers.filter (fun sc => (matching_speakers dir F).contains sc.1) with hns
    have hmeta : metaSum (buildMeta dir ns []) f =
        (ns.map (fun sc => if fieldVal dir sc.1 f ≠ "" then sc.2 else 0)).sum := by
      rw [metaSum_buildMeta hf1 hf2 hdir]
      simp [metaSum, lookup, sumVals]
    constructor
    · rw [hmeta]
      unfold sumVals
      apply List.sum_le_sum
      intro sc _
      split <;> omega
    · intro hall
      rw [hmeta]
      unfold sumVals
      congr 1
      apply List.map_eq_map_iff.mpr
      intro sc hsc
      rw [if_pos (hall sc.1 (List.mem_map.2 ⟨sc, hsc, rfl⟩))]

/-! ## Merge invariants -/

theorem sumVals_bumpFold (g : String × Nat → String) :
    ∀ (l : List (String × Nat)) (sp0 : List (String × Nat)),
    sumVals (l.foldl (fun sp sc => bump sp (g sc) sc.2) sp0) = sumVals sp0 + sumVals l := by
  intro l
  induction l with
  | nil => intro sp0; simp [sumVals]
  | cons sc rest ih =>
    intro sp0
    rw [List.foldl_cons, ih, sumVals_bump, sumVals_cons]
    omega

theorem bumpFold_pos (g : String × Nat → String) :
    ∀ {l : List (String × Nat)} {sp0 : List (String × Nat)},
    (∀ p ∈ sp0, 1 ≤ p.2) → (∀ sc ∈ l, 1 ≤ sc.2) →
    ∀ p ∈ l.foldl (fun sp sc => bump sp (g sc) sc.2) sp0, 1 ≤ p.2 := by
  intro l
  induction l with
  | nil => intro sp0 h0 _; exact h0
  | cons sc rest ih =>
    intro sp0 h0 hl
    rw [List.foldl_cons]
    exact ih (bump_pos h0 (hl sc (List.mem_cons_self _ _)))
      (fun q hq => hl q (List.mem_cons_of_mem _ hq))

theorem bumpFold_mem (g : String × Nat → String) :
    ∀ {l sp0 : List (String × Nat)} {p : String × Nat},
    p ∈ l.foldl (fun sp sc => bump sp (g sc) sc.2) sp0 →
    p ∈ sp0 ∨ ∃ sc ∈ l, p.1 = g sc := by
  intro l
  induction l with
  | nil => intro sp0 p hp; exact Or.inl hp
  | cons sc rest ih =>
    intro sp0 p hp
    rw [List.foldl_cons] at hp
    rcases ih hp with h1 | ⟨sc', hsc', h2⟩
    · rcases mem_bump h1 with h2 | h2
      · exact Or.inl h2
      · exact Or.inr ⟨sc, List.mem_cons_self _ _, h2⟩
    · exact Or.inr ⟨sc', List.mem_cons_of_mem _ hsc', h2⟩

theorem mergeMeta_pos {md0 : List (String × List (String × Nat))}
    (h0 : ∀ kv ∈ md0, ∀ vc ∈ kv.2, 1 ≤ vc.2)
    {src : List (String × List (String × Nat))}
    (hsrc : ∀ kv ∈ src, ∀ vc ∈ kv.2, 1 ≤ vc.2) :
    ∀ kv ∈ src.foldl
        (fun md kv => kv.2.foldl (fun md vc => bump2 md kv.1 vc.1 vc.2) md) md0,
      ∀ vc ∈ kv.2, 1 ≤ vc.2 := by
  refine foldl_pres_mem
    (P := fun (md : List (String × List (String × Nat))) =>
      ∀ kv ∈ md, ∀ vc ∈ kv.2, 1 ≤ vc.2) ?_ h0
  intro md kv hkv hmd
  refine foldl_pres_mem
    (P := fun (md : List (String × List (String × Nat))) =>
      ∀ kv ∈ md, ∀ vc ∈ kv.2, 1 ≤ vc.2) ?_ hmd
  intro md' vc hvc hmd'
  exact bump2_pos hmd' (hsrc kv hkv vc hvc)

theorem merged_fold_pres {P : Entry0 → Prop} (nltk : List String)
    (sessions : List SessionData)
    (hP : ∀ s ∈ sessions, ∀ ws ∈ s.word_stats nltk,
      ∀ e, P e → P (mergeUpd s.session_name ws e))
    (hinit : ∀ s ∈ sessions, ∀ ws ∈ s.word_stats nltk,
      P (mergeUpd s.session_name ws Entry0.init)) :
    ∀ we ∈ sessions.foldl (mergeSession nltk) [], P we.2 := by
  refine foldl_pres_mem
    (P := fun (t : List (String × Entry0)) => ∀ we ∈ t, P we.2) ?_ (by simp)
  intro t s hs ht
  unfold mergeSession
  refine foldl_pres_mem
    (P := fun (t : List (String × Entry0)) => ∀ we ∈ t, P we.2) ?_ ht
  intro t' ws hws ht'
  unfold mergeWordStep
  exact updateTable_pres ht' (hP s hs ws hws) (hinit s hs ws hws)

theorem merged_tableInv (nltk : List String) (sessions : List SessionData) :
    tableInv (get_merged_word_stats nltk sessions) := by
  intro we hwe
  unfold get_merged_word_stats at hwe
  obtain ⟨e0, he0, rfl⟩ := mem_finalize.1 hwe
  have hP : ∀ s ∈ sessions, ∀ ws ∈ s.word_stats nltk, ∀ (e : Entry0),
      e.total_count = sumVals e.speakers →
      (mergeUpd s.session_name ws e).total_count =
        sumVals (mergeUpd s.session_name ws e).speakers := by
    intro s hs ws hws e he
    have hws2 : ws.2.total_count = sumVals ws.2.speakers :=
      (compute_tableInv nltk s.words s.speakers ws hws).1
    have hsum := sumVals_bumpFold (fun sc => s.session_name ++ ":" ++ sc.1)
      ws.2.speakers e.speakers
    simp only [mergeUpd]
    omega
  have key := merged_fold_pres
    (P := fun e => e.total_count = sumVals e.speakers) nltk sessions hP
    (fun s hs ws hws => hP s hs ws hws Entry0.init (by simp [Entry0.init, sumVals]))
    e0 he0
  exact ⟨key, rfl⟩

theorem merged_tablePos (nltk : List String) (sessions : List SessionData) :
    tablePos (get_merged_word_stats nltk sessions) := by
  intro we hwe
  unfold get_merged_word_stats at hwe
  obtain ⟨e0, he0, rfl⟩ := mem_finalize.1 hwe
  have hstep : ∀ s ∈ sessions, ∀ ws ∈ s.word_stats nltk, ∀ (e : Entry0),
      ((∀ sc ∈ e.speakers, 1 ≤ sc.2) ∧ (∀ kv ∈ e.metadata, ∀ vc ∈ kv.2, 1 ≤ vc.2)) →
      (1 ≤ (mergeUpd s.session_name ws e).total_count ∧
        (∀ sc ∈ (mergeUpd s.session_name ws e).speakers, 1 ≤ sc.2) ∧
        (∀ kv ∈ (mergeUpd s.session_name ws e).metadata, ∀ vc ∈ kv.2, 1 ≤ vc.2)) := by
    intro s hs ws hws e he
    have hpos := compute_tablePos nltk s.words s.speakers ws hws
    refine ⟨?_, ?_, ?_⟩
    · have := hpos.1
      simp only [mergeUpd]
      omega
    · exact bumpFold_pos _ he.1 hpos.2.1
    · exact mergeMeta_pos he.2 hpos.2.2
  have key := merged_fold_pres
    (P := fun e => 1 ≤ e.total_count ∧ (∀ sc ∈ e.speakers, 1 ≤ sc.2) ∧
      (∀ kv ∈ e.metadata, ∀ vc ∈ kv.2, 1 ≤ vc.2)) nltk sessions
    (fun s hs ws hws e he => hstep s hs ws hws e ⟨he.2.1, he.2.2⟩)
    (fun s hs ws hws => hstep s hs ws hws Entry0.init
      ⟨by simp [Entry0.init], by simp [Entry0.init]⟩)
    e0 he0
  exact key

/-! ## Merge total-count sum law and key qualification (claim C3) -/

theorem lookupTotal_finalize (t0 : List (String × Entry0)) (w : String) :
    lookupTotal (finalize t0) w = lookupTotal0 t0 w := by
  rw [lookupTotal, lookup_finalize]
  cases h : lookup t0 w <;> simp [lookupTotal0, toFinal, h]

theorem lookupTotal_eq_zero {ts : Table} {w : String} (h : w ∉ keys ts) :
    lookupTotal ts w = 0 := by
  rw [lookupTotal, (lookup_eq_none_iff ts w).2 h]
  rfl

theorem lookupTotal0_mergeWordStep (sname : String) (t : List (String × Entry0))
    (ws : String × WordStatsEntry) (w : String) :
    lookupTotal0 (mergeWordStep sname t ws) w =
      lookupTotal0 t w + (if ws.1 = w then ws.2.total_count else 0) := by
  unfold mergeWordStep
  by_cases h : ws.1 = w
  · subst h
    rw [lookupTotal0, lookup_updateTable_self]
    cases hlk : lookup t ws.1 <;>
      simp [lookupTotal0, mergeUpd, hlk, Entry0.init]
  · rw [lookupTotal0, lookup_updateTable_ne _ h]
    simp [lookupTotal0, h]

theorem lookupTotal0_mergeTable (sname : String) (w : String) :
    ∀ (ts : Table) (t : List (String × Entry0)), (keys ts).Nodup →
    lookupTotal0 (ts.foldl (mergeWordStep sname) t) w =
      lookupTotal0 t w + lookupTotal ts w := by
  intro ts
  induction ts with
  | nil => intro t _; simp [lookupTotal, lookup]
  | cons ws rest ih =>
    intro t hnd
    obtain ⟨w₁, e₁⟩ := ws
    have hnd' : (keys rest).Nodup := (List.nodup_cons.1 (by simpa [keys] using hnd)).2
    have hhead : w₁ ∉ keys rest := (List.nodup_cons.1 (by simpa [keys] using hnd)).1
    rw [List.foldl_cons, ih _ hnd', lookupTotal0_mergeWordStep]
    by_cases h : w₁ = w
    · subst h
      rw [lookupTotal_eq_zero hhead]
      simp [lookupTotal, lookup]
    · have : lookupTotal ((w₁, e₁) :: rest) w = lookupTotal rest w := by
        simp [lookupTotal, lookup, h]
      rw [this]
      simp [h]

theorem merged_fold_total (nltk : List String) (w : String) :
    ∀ (l : List SessionData) (t : List (String × Entry0)),
    lookupTotal0 (l.foldl (mergeSession nltk) t) w =
      lookupTotal0 t w + (l.map (fun s => lookupTotal (s.word_stats nltk) w)).sum := by
  intro l
  induction l with
  | nil => intro t; simp
  | cons s rest ih =>
    intro t
    rw [List.foldl_cons, ih]
    have hstep : lookupTotal0 (mergeSession nltk t s) w =
        lookupTotal0 t w + lookupTotal (s.word_stats nltk) w := by
      unfold mergeSession
      exact lookupTotal0_mergeTable s.session_name w _ t
        (compute_keys_nodup nltk s.words s.speakers)
    rw [hstep]
    simp
    omega

theorem merged_total (nltk : List String) (sessions : List SessionData) (w : String) :
    lookupTotal (get_merged_word_stats nltk sessions) w =
      (sessions.map (fun s => lookupTotal (s.word_stats nltk) w)).sum := by
  unfold get_merged_word_stats
  rw [lookupTotal_finalize, merged_fold_total]
  simp [lookupTotal0, lookup]

theorem merged_qualKeys (nltk : List String) (sessions : List SessionData) :
    ∀ we ∈ get_merged_word_stats nltk sessions, ∀ kc ∈ we.2.speakers,
      qualKey sessions kc.1 := by
  intro we hwe
  unfold get_merged_word_stats at hwe
  obtain ⟨e0, he0, rfl⟩ := mem_finalize.1 hwe
  have hP : ∀ s ∈ sessions, ∀ ws ∈ s.word_stats nltk, ∀ (e : Entry0),
      (∀ kc ∈ e.speakers, qualKey sessions kc.1) →
      ∀ kc ∈ (mergeUpd s.session_name ws e).speakers, qualKey sessions kc.1 := by
    intro s hs ws hws e he kc hkc
    rcases bumpFold_mem (fun sc => s.session_name ++ ":" ++ sc.1) hkc with h1 | ⟨sc, hsc, h2⟩
    · exact he kc h1
    · exact ⟨s, hs, sc.1, h2⟩
  have key := merged_fold_pres
    (P := fun e => ∀ kc ∈ e.speakers, qualKey sessions kc.1) nltk sessions hP
    (fun s hs ws hws => hP s hs ws hws Entry0.init (by simp [Entry0.init]))
    e0 he0
  exact key

/-! ## Stable descending sort (claim C9) -/

theorem mem_insertByCount {x b : String × WordStatsEntry}
    {l : List (String × WordStatsEntry)} (h : b ∈ insertByCount x l) :
    b = x ∨ b ∈ l := by
  induction l with
  | nil => exact Or.inl (List.mem_singleton.1 h)
  | cons y ys ih =>
    by_cases hlt : y.2.total_count < x.2.total_count
    · simp only [insertByCount, if_pos hlt] at h
      rcases List.mem_cons.1 h with h1 | h1
      · exact Or.inl h1
      · exact Or.inr h1
    · simp only [insertByCount, if_neg hlt] at h
      rcases List.mem_cons.1 h with h1 | h1
      · exact Or.inr (h1 ▸ List.mem_cons_self _ _)
      · rcases ih h1 with h2 | h2
        · exact Or.inl h2
        · exact Or.inr (List.mem_cons_of_mem _ h2)

theorem insertByCount_perm (x : String × WordStatsEntry)
    (l : List (String × WordStatsEntry)) :
    List.Perm (insertByCount x l) (x :: l) := by
  induction l with
  | nil => exact List.Perm.refl _
  | cons y ys ih =>
    by_cases hlt : y.2.total_count < x.2.total_count
    · simp only [insertByCount, if_pos hlt]
      exact List.Perm.refl _
    · simp only [insertByCount, if_neg hlt]
      exact (List.Perm.cons y ih).trans (List.Perm.swap x y ys)

theorem sortFold_perm :
    ∀ (l acc : Table),
    List.Perm (l.foldl (fun acc x => insertByCount x acc) acc) (acc ++ l) := by
  intro l
  induction l with
  | nil => intro acc; simp
  | cons x rest ih =>
    intro acc
    rw [List.foldl_cons]
    refine (ih (insertByCount x acc)).trans ?_
    refine (List.Perm.append_right rest (insertByCount_perm x acc)).trans ?_
    exact List.perm_middle.symm

theorem sortByCountDesc_perm (T : Table) : List.Perm (sortByCountDesc T) T := by
  have := sortFold_perm T []
  simpa [sortByCountDesc] using this

theorem pairwise_insertByCount {x : String × WordStatsEntry}
    {l : List (String × WordStatsEntry)}
    (h : List.Pairwise (fun a b => b.2.total_count ≤ a.2.total_count) l) :
    List.Pairwise (fun a b => b.2.total_count ≤ a.2.total_count)
      (insertByCount x l) := by
  induction l with
  | nil => simp [insertByCount]
  | cons y ys ih =>
    obtain ⟨hy, hys⟩ := List.pairwise_cons.1 h
    by_cases hlt : y.2.total_count < x.2.total_count
    · simp only [insertByCount, if_pos hlt]
      refine List.pairwise_cons.2 ⟨?_, h⟩
      intro b hb
      rcases List.mem_cons.1 hb with h1 | h1
      · subst h1; omega
      · have := hy b h1
        omega
    · simp only [insertByCount, if_neg hlt]
      refine List.pairwise_cons.2 ⟨?_, ih hys⟩
      intro b hb
      rcases mem_insertByCount hb with h1 | h1
      · subst h1; omega
      · exact hy b h1

theorem filter_insertByCount (c : Nat) {x : String × WordStatsEntry}
    {l : List (String × WordStatsEntry)}
    (h : List.Pairwise (fun a b => b.2.total_count ≤ a.2.total_count) l) :
    (insertByCount x l).filter (fun q => q.2.total_count == c) =
      if x.2.total_count == c then
        l.filter (fun q => q.2.total_count == c) ++ [x]
      else l.filter (fun q => q.2.total_count == c) := by
  induction l with
  | nil =>
    simp only [insertByCount, List.filter_cons, List.filter_nil]
    split <;> simp
  | cons y ys ih =>
    obtain ⟨hy, hys⟩ := List.pairwise_cons.1 h
    by_cases hlt : y.2.total_count < x.2.total_count
    · simp only [insertByCount, if_pos hlt]
      by_cases hx : (x.2.total_count == c) = true
    -- all of y :: ys have strictly smaller counts than x, so none matches c
      · have hc : x.2.total_count = c := by simpa using hx
        have hnone : (y :: ys).filter (fun q => q.2.total_count == c) = [] := by
          apply List.filter_eq_nil_iff.2
          intro b hb
          have hble : b.2.total_count ≤ y.2.total_count := by
            rcases List.mem_cons.1 hb with h1 | h1
            · subst h1; omega
            · exact hy b h1
          simp only [beq_iff_eq]
          omega
        rw [List.filter_cons_of_pos (by simpa using hx), if_pos hx, hnone]
        have : (y :: ys).filter (fun q => q.2.total_count == c) = [] := hnone
        simp [this]
      · rw [List.filter_cons_of_neg (by simpa using hx), if_neg hx]
    · simp only [insertByCount, if_neg hlt]
      rw [List.filter_cons, ih hys, List.filter_cons]
      by_cases hx : (x.2.total_count == c) = true <;>
        by_cases hyc : (y.2.total_count == c) = true <;>
          simp [hx, hyc]

theorem sortFold_main (c : Nat) :
    ∀ (l acc : Table),
    List.Pairwise (fun a b => b.2.total_count ≤ a.2.total_count) acc →
    (List.Pairwise (fun a b => b.2.total_count ≤ a.2.total_count)
        (l.foldl (fun acc x => insertByCount x acc) acc) ∧
      (l.foldl (fun acc x => insertByCount x acc) acc).filter
          (fun q => q.2.total_count == c) =
        acc.filter (fun q => q.2.total_count == c) ++
          l.filter (fun q => q.2.total_count == c)) := by
  intro l
  induction l with
  | nil => intro acc hacc; exact ⟨hacc, by simp⟩
  | cons x rest ih =>
    intro acc hacc
    rw [List.foldl_cons]
    obtain ⟨hs, hf⟩ := ih (insertByCount x acc) (pairwise_insertByCount hacc)
    refine ⟨hs, ?_⟩
    rw [hf, filter_insertByCount c hacc, List.filter_cons]
    by_cases hx : (x.2.total_count == c) = true <;> simp [hx]

theorem sortByCountDesc_pairwise (T : Table) :
    List.Pairwise (fun a b => b.2.total_count ≤ a.2.total_count)
      (sortByCountDesc T) :=
  (sortFold_main 0 T [] (by simp)).1

theorem sortByCountDesc_filter (T : Table) (c : Nat) :
    (sortByCountDesc T).filter (fun q => q.2.total_count == c) =
      T.filter (fun q => q.2.total_count == c) := by
  have := (sortFold_main c T [] (by simp)).2
  simpa [sortByCountDesc] using this

/-! ## Filter semantics (claim C2): spec-side description -/

theorem speakerMatches_iff (F : Filters) (meta : Meta) :
    speakerMatches F meta = true ↔
      ∀ fs ∈ F, fs.2 ≠ [] → (lookup meta (lowerStr fs.1)).getD "" ∈ fs.2 := by
  unfold speakerMatches
  rw [List.all_eq_true]
  constructor
  · intro h fs hfs hne
    have h2 := h fs hfs
    cases hie : fs.2.isEmpty with
    | true => exact absurd (List.isEmpty_iff.1 hie) hne
    | false =>
      rw [hie, Bool.false_or] at h2
      simpa using h2
  · intro h fs hfs
    by_cases hne : fs.2 = []
    · simp [hne]
    · have := h fs hfs hne
      simp [this]

theorem mem_matching_speakers {dir : Dir} (hdir : (keys dir).Nodup)
    (F : Filters) (s : String) :
    s ∈ matching_speakers dir F ↔ specMatches dir F s := by
  unfold matching_speakers
  constructor
  · intro h
    obtain ⟨⟨s', meta⟩, hmem, rfl⟩ := List.mem_map.1 h
    have hm := List.mem_filter.1 hmem
    exact ⟨meta, lookup_eq_some_of_mem_nodup hdir hm.1,
      (speakerMatches_iff F meta).1 hm.2⟩
  · rintro ⟨meta, hm, hp⟩
    refine List.mem_map.2 ⟨(s, meta), ?_, rfl⟩
    exact List.mem_filter.2 ⟨lookup_mem hm, (speakerMatches_iff F meta).2 hp⟩

theorem filterEntry_eq_spec {dir : Dir} (hdir : (keys dir).Nodup)
    (F : Filters) (e : WordStatsEntry) :
    filterEntry dir (matching_speakers dir F) e = specFilterEntry dir F e := by
  unfold filterEntry specFilterEntry
  have hpred : e.speakers.filter (fun sc => (matching_speakers dir F).contains sc.1) =
      e.speakers.filter (fun sc => decide (specMatches dir F sc.1)) := by
    apply List.filter_congr
    intro sc _
    apply Bool.coe_iff_coe.mp
    simp only [List.elem_iff, decide_eq_true_eq]
    exact mem_matching_speakers hdir F sc.1
  rw [hpred]

theorem filter_eq_specFilter {dir : Dir} (hdir : (keys dir).Nodup)
    (T : Table) (F : Filters) :
    filter_word_stats T dir F = specFilter T dir F := by
  unfold filter_word_stats specFilter trivialFilter
  by_cases hc : (F.isEmpty || F.all fun fs => fs.2.isEmpty) = true
  · rw [if_pos hc, if_pos hc]
  · rw [if_neg hc, if_neg hc]
    apply List.filterMap_congr
    intro we _
    rw [filterEntry_eq_spec hdir]

theorem filter_empty_of_no_match {T : Table} {dir : Dir} {F : Filters}
    (hdir : (keys dir).Nodup)
    (hc : (F.isEmpty || F.all fun fs => fs.2.isEmpty) = false)
    (h : ∀ s, ¬specMatches dir F s) :
    filter_word_stats T dir F = [] := by
  unfold filter_word_stats
  rw [if_neg (by simp [hc])]
  apply List.filterMap_eq_nil_iff.mpr
  intro we _
  have hres : we.2.speakers.filter
      (fun sc => (matching_speakers dir F).contains sc.1) = [] := by
    apply List.filter_eq_nil_iff.2
    intro s₁ c₁ hsc
    exact h s₁.1 ((mem_matching_speakers hdir F s₁.1).1 (by simpa using hsc))
  have hfe : filterEntry dir (matching_speakers dir F) we.2 = none := by
    simp only [filterEntry]
    rw [hres]
    rfl
  rw [hfe]
  rfl

theorem lookup_filterMap_entry (h : WordStatsEntry → Option WordStatsEntry) :
    ∀ {T : Table}, (keys T).Nodup → ∀ w : String,
    lookup (T.filterMap (fun we => (h we.2).map (we.1, ·))) w =
      (lookup T w).bind h := by
  intro T
  induction T with
  | nil => intro _ w; simp [lookup]
  | cons p rest ih =>
    intro hnd w
    obtain ⟨k, e⟩ := p
    have hnd' : (keys rest).Nodup := (List.nodup_cons.1 (by simpa [keys] using hnd)).2
    have hk0 : k ∉ keys rest := (List.nodup_cons.1 (by simpa [keys] using hnd)).1
    by_cases hk : k = w
    · subst hk
      cases hh : h e with
      | none =>
        rw [List.filterMap_cons_none (by simp [hh])]
        have hnone : lookup (rest.filterMap (fun we => (h we.2).map (we.1, ·))) k
            = none := by
          rw [ih hnd' k, (lookup_eq_none_iff rest k).2 hk0]
          rfl
        simp [lookup, hh, hnone]
      | some e' =>
        rw [List.filterMap_cons_some (b := (k, e')) (by simp [hh])]
        simp [lookup, hh]
    · cases hh : h e with
      | none =>
        rw [List.filterMap_cons_none (by simp [hh]), ih hnd' w]
        simp [lookup, hk]
      | some e' =>
        rw [List.filterMap_cons_some (b := (k, e')) (by simp [hh])]
        rw [show lookup ((k, e) :: rest) w = lookup rest w from by simp [lookup, hk]]
        rw [show lookup ((k, e') :: rest.filterMap (fun we => (h we.2).map (we.1, ·))) w
            = lookup (rest.filterMap (fun we => (h we.2).map (we.1, ·))) w from by
          simp [lookup, hk]]
        exact ih hnd' w

theorem filter_total_le {T : Table} {dir : Dir} {F : Filters}
    (hT : (keys T).Nodup) (hInv : tableInv T) {w : String} {e e' : WordStatsEntry}
    (hE : lookup T w = some e)
    (hE' : lookup (filter_word_stats T dir F) w = some e') :
    e'.total_count ≤ e.total_count := by
  by_cases hc : (F.isEmpty || F.all fun fs => fs.2.isEmpty) = true
  · unfold filter_word_stats at hE'
    rw [if_pos (by simp [hc]), hE] at hE'
    obtain rfl := Option.some.inj hE'
    exact le_rfl
  · unfold filter_word_stats at hE'
    rw [if_neg (by simp [hc]), lookup_filterMap_entry _ hT w, hE] at hE'
    obtain ⟨hne, rfl⟩ := filterEntry_eq_some hE'
    have h1 := sumVals_filter_le
      (fun sc => (matching_speakers dir F).contains sc.1) e.speakers
    have h2 : e.total_count = sumVals e.speakers := (hInv (w, e) (lookup_mem hE)).1
    simp only []
    omega

/-! ## Session cache (claim C7) -/

theorem lookup_append_none {β : Type} {l₁ : List (String × β)}
    (l₂ : List (String × β)) {k : String} (h : lookup l₁ k = none) :
    lookup (l₁ ++ l₂) k = lookup l₂ k := by
  induction l₁ with
  | nil => simp
  | cons p rest ih =>
    obtain ⟨k₂, v⟩ := p
    by_cases hk : k₂ = k
    · simp [lookup, hk] at h
    · simp only [lookup, if_neg hk] at h
      simpa [lookup, hk] using ih h

theorem get_session_error_iff {m : SessionManager} (hm : m.inv) (name : String) :
    (∃ msg, m.get_session name = .error msg) ↔
      name ∉ m.session_info.map SessionInfo.name := by
  unfold SessionManager.get_session
  cases hlk : lookup m.sessions name with
  | some sd =>
    constructor
    · rintro ⟨msg, h⟩
      exact absurd h (by simp)
    · intro hno
      exact absurd (hm (name, sd) (lookup_mem hlk)) hno
  | none =>
    cases hfind : m.session_info.find? (fun i => i.name = name) with
    | none =>
      constructor
      · intro _ hmem
        obtain ⟨i, hi, rfl⟩ := List.mem_map.1 hmem
        have := List.find?_eq_none.1 hfind i hi
        simp at this
      · intro _
        exact ⟨_, rfl⟩
    | some info =>
      constructor
      · rintro ⟨msg, h⟩
        exact absurd h (by simp)
      · intro hno
        have h1 : info.name = name := by simpa using List.find?_some hfind
        have h2 : info ∈ m.session_info := List.mem_of_find?_eq_some hfind
        exact absurd (List.mem_map.2 ⟨info, h2, h1⟩) hno

theorem get_session_cached {m : SessionManager} {name : String} {sd : SessionData}
    (h : lookup m.sessions name = some sd) :
    m.get_session name = .ok (sd, m) := by
  unfold SessionManager.get_session
  rw [h]

theorem get_session_idem {m m₂ : SessionManager} {name : String} {sd : SessionData}
    (h : m.get_session name = .ok (sd, m₂)) :
    m₂.get_session name = .ok (sd, m₂) := by
  unfold SessionManager.get_session at h
  cases hlk : lookup m.sessions name with
  | some sd' =>
    rw [hlk] at h
    obtain ⟨h1, h2⟩ := Prod.mk.injEq .. ▸ Except.ok.inj h
    subst h1 h2
    exact get_session_cached hlk
  | none =>
    rw [hlk] at h
    cases hfind : m.session_info.find? (fun i => i.name = name) with
    | none =>
      rw [hfind] at h
      exact absurd h (by simp)
    | some info =>
      rw [hfind] at h
      obtain ⟨h1, h2⟩ := Prod.mk.injEq .. ▸ Except.ok.inj h
      subst h1 h2
      apply get_session_cached
      show lookup (m.sessions ++ [(name, buildSession info)]) name = _
      rw [lookup_append_none _ hlk]
      simp [lookup]

theorem refresh_inv (m : SessionManager) (d : List SessionInfo) :
    (m.refresh d).inv := by
  intro kv hkv
  unfold SessionManager.refresh at hkv
  have := (List.mem_filter.1 hkv).2
  simpa [SessionManager.refresh, List.elem_iff] using this

theorem get_session_inv {m m₂ : SessionManager} {name : String} {sd : SessionData}
    (hm : m.inv) (h : m.get_session name = .ok (sd, m₂)) : m₂.inv := by
  unfold SessionManager.get_session at h
  cases hlk : lookup m.sessions name with
  | some sd' =>
    rw [hlk] at h
    obtain ⟨h1, h2⟩ := Prod.mk.injEq .. ▸ Except.ok.inj h
    subst h2
    exact hm
  | none =>
    rw [hlk] at h
    cases hfind : m.session_info.find? (fun i => i.name = name) with
    | none =>
      rw [hfind] at h
      exact absurd h (by simp)
    | some info =>
      rw [hfind] at h
      obtain ⟨h1, h2⟩ := Prod.mk.injEq .. ▸ Except.ok.inj h
      subst h2
      intro kv hkv
      rcases List.mem_append.1 hkv with h3 | h3
      · exact hm kv h3
      · obtain rfl := List.mem_singleton.1 h3
        have hn : info.name = name := by simpa using List.find?_some hfind
        exact List.mem_map.2 ⟨info, List.mem_of_find?_eq_some hfind, hn⟩

/-! ## The claims -/

/-- C1: for every `WordStatsTable` produced by the system — built by
`compute_word_stats`, derived by `filter_word_stats` from a table satisfying
the invariant, or merged by `get_merged_word_stats` — every word entry's
`total_count` equals the sum of the values of its speakers mapping and its
`speaker_count` equals the number of keys of that mapping. -/
theorem C1_table_invariants :
    (∀ (nltk : List String) (words : List Token) (dir : Dir),
      tableInv (compute_word_stats nltk words dir)) ∧
    (∀ (T : Table) (dir : Dir) (F : Filters), tableInv T →
      tableInv (filter_word_stats T dir F)) ∧
    (∀ (nltk : List String) (sessions : List SessionData),
      tableInv (get_merged_word_stats nltk sessions)) :=
  ⟨compute_tableInv, fun _ dir F hT => filter_tableInv dir F hT, merged_tableInv⟩

/-- C1 witness: the invariant evaluated on a concrete table and its concrete
filtering. -/
theorem C1_witness : tableInv TW ∧ tableInv (filter_word_stats TW dirW FW) :=
  ⟨by decide, C1_table_invariants.2.1 TW dirW FW (by decide)⟩

/-- C2 counterexample: the claim's matching rule is wrong on the code when
the empty string is among a field's allowed values.  With directory `dirCE`
(speaker `A` has the empty `role` value) and filter `FCE` (`role ∈ {""}`),
the claim mandates that `A` not match (`a speaker whose value for such a
field is the empty string (absent) does not match`), so `hello` should be
dropped and the result empty; the code keeps `A` and returns the table
unchanged.  Conversely, for the speaker `B` absent from the directory, the
claim's `matches iff the value is in the allowed set` rule (value `""`,
`"" ∈ {""}`) mandates keeping `B`; the code drops it. -/
theorem C2_counterexample :
    fieldVal dirCE "A" "role" = "" ∧
    filter_word_stats TCE dirCE FCE = TCE ∧ TCE ≠ [] ∧
    fieldVal dirCE "B" "role" = "" ∧ "" ∈ ["" ] ∧
    filter_word_stats TCE2 dirCE FCE = [] := by
  decide

/-- C2 (amended): for a directory with distinct speaker names,
`filter_word_stats` keeps exactly the matching speakers, where a speaker
matches iff it is present in the directory and, for every field of the
filter with a non-empty allowed-value set, its stored value for that field
(the empty string when absent) is in the allowed set (so an empty value
matches only when the empty string itself is allowed); it restricts each
word's speakers mapping to the matching speakers, drops a word whose
restriction is empty, and recomputes `total_count` as the sum of the
restricted counts (`specFilter` is exactly this description); consequently a
non-trivial filter matching zero speakers yields an empty table, and — for
an input table with distinct words satisfying the C1 invariant — every
surviving word's `total_count` is at most its `total_count` in the input. -/
theorem C2_amended_filter_semantics :
    ∀ (T : Table) (dir : Dir) (F : Filters), (keys dir).Nodup →
      (filter_word_stats T dir F = specFilter T dir F) ∧
      (∀ s, s ∈ matching_speakers dir F ↔ specMatches dir F s) ∧
      (trivialFilter F = false → (∀ s, ¬specMatches dir F s) →
        filter_word_stats T dir F = []) ∧
      ((keys T).Nodup → tableInv T → ∀ (w : String) (e e' : WordStatsEntry),
        lookup T w = some e → lookup (filter_word_stats T dir F) w = some e' →
        e'.total_count ≤ e.total_count) := by
  intro T dir F hdir
  refine ⟨filter_eq_specFilter hdir T F, fun s => mem_matching_speakers hdir F s,
    ?_, ?_⟩
  · intro hc h
    exact filter_empty_of_no_match hdir (by simpa [trivialFilter] using hc) h
  · intro hT hInv w e e' hE hE'
    exact filter_total_le hT hInv hE hE'

/-- C2 witness: the amended description evaluated at a concrete table,
directory and filter. -/
theorem C2_witness :
    (keys dirW).Nodup ∧ filter_word_stats TW dirW FW = specFilter TW dirW FW :=
  ⟨by decide, (C2_amended_filter_semantics TW dirW FW (by decide)).1⟩

/-- C3: for every word, the merged table's `total_count` is the sum over all
sessions of that session's `total_count` for the word (0 when absent); every
speaker key of a merged entry is session-qualified (`"{session}:{speaker}"`
for one of the merged sessions); and in the two-session scenario where both
sessions contain a speaker named `A` uttering `hello` once, the merged entry
has `speaker_count = 2`. -/
theorem C3_merge_sum_and_identity :
    (∀ (nltk : List String) (sessions : List SessionData) (w : String),
      lookupTotal (get_merged_word_stats nltk sessions) w =
        (sessions.map (fun s => lookupTotal (s.word_stats nltk) w)).sum) ∧
    (∀ (nltk : List String) (sessions : List SessionData),
      ∀ we ∈ get_merged_word_stats nltk sessions, ∀ kc ∈ we.2.speakers,
        qualKey sessions kc.1) ∧
    ((lookup (get_merged_word_stats [] [sessionA1, sessionA2]) "hello").map
      WordStatsEntry.speaker_count = some 2) :=
  ⟨merged_total, merged_qualKeys, by decide⟩

/-- C3 witness: the sum law and the key-qualification evaluated on the
concrete two-session scenario. -/
theorem C3_witness :
    (lookupTotal (get_merged_word_stats [] [sessionA1, sessionA2]) "hello" =
      ([sessionA1, sessionA2].map
        (fun s => lookupTotal (s.word_stats []) "hello")).sum) ∧
    qualKey [sessionA1, sessionA2] "s1:A" :=
  ⟨C3_merge_sum_and_identity.1 [] [sessionA1, sessionA2] "hello",
   C3_merge_sum_and_identity.2.1 [] [sessionA1, sessionA2]
     ("hello", ⟨2, 2, [("s1:A", 1), ("s2:A", 1)],
       [("role", [("eng", 1), ("pm", 1)])]⟩) (by decide) ("s1:A", 1) (by decide)⟩

/-- C4: for every entry of a table built by `compute_word_stats` over a
well-formed directory — or derived from such a table by `filter_word_stats`
— and every metadata field `f`, the sum of the values of
`metadata_counts[f]` is at most `total_count`, with equality when every
contributing speaker has a non-empty value for `f` (speakers absent from the
directory or with an empty value contribute to `total_count` and
`speaker_counts` but not to the metadata counts). -/
theorem C4_metadata_sums :
    ∀ (dir : Dir) (f : String), WFDir dir → f ≠ "speaker_id" → f ≠ "name" →
      (∀ (nltk : List String) (words : List Token),
        tableFieldOk dir f (compute_word_stats nltk words dir)) ∧
      (∀ (T : Table) (F : Filters), tableFieldOk dir f T →
        tableFieldOk dir f (filter_word_stats T dir F)) :=
  fun _ _ hdir hf1 hf2 =>
    ⟨fun nltk words => compute_tableFieldOk hf1 hf2 hdir nltk words,
     fun _ F hT => filter_tableFieldOk hf1 hf2 hdir F hT⟩

/-- C4 witness: the metadata-sum property evaluated for the `role` field on a
concretely computed table. -/
theorem C4_witness :
    WFDir dirW ∧
    tableFieldOk dirW "role" (compute_word_stats [] tokensW dirW) :=
  ⟨by decide,
   (C4_metadata_sums dirW "role" (by decide) (by decide) (by decide)).1 [] tokensW⟩

/-- C5: applying an empty filter — no fields, or every field mapped to an
empty value list — is a no-op: `filter_word_stats` returns the input table
itself. -/
theorem C5_noop_filter :
    ∀ (T : Table) (dir : Dir) (F : Filters),
      (F = [] ∨ ∀ fs ∈ F, fs.2 = []) → filter_word_stats T dir F = T := by
  intro T dir F h
  have hc : (F.isEmpty || F.all fun fs => fs.2.isEmpty) = true := by
    rcases h with h | h
    · subst h
      rfl
    · have hall : (F.all fun fs => fs.2.isEmpty) = true :=
        List.all_eq_true.2 (fun fs hfs => List.isEmpty_iff.2 (h fs hfs))
      rw [hall, Bool.or_true]
  unfold filter_word_stats
  rw [if_pos hc]

/-- C5 witness: the no-op filter evaluated on a concrete table. -/
theorem C5_witness :
    (∀ fs ∈ [("role", ([] : List String))], fs.2 = []) ∧
    filter_word_stats TW dirW [("role", [])] = TW :=
  ⟨by decide, C5_noop_filter TW dirW [("role", [])] (Or.inr (by decide))⟩

/-- C7: on a reachable manager (cached names all discovered), `get_session`
fails with the not-found error exactly when the name is not in the
last-discovered set; a cached name is returned as-is without rebuilding; a
successful call caches the session so that calling again returns the very
same session and state; `refresh` establishes and `get_session` preserves the
reachability invariant. -/
theorem C7_session_cache :
    (∀ (m : SessionManager) (name : String), m.inv →
      ((∃ msg, m.get_session name = .error msg) ↔
        name ∉ m.session_info.map SessionInfo.name)) ∧
    (∀ (m m₂ : SessionManager) (name : String) (sd : SessionData),
      m.get_session name = .ok (sd, m₂) → m₂.get_session name = .ok (sd, m₂)) ∧
    (∀ (m : SessionManager) (name : String) (sd : SessionData),
      lookup m.sessions name = some sd → m.get_session name = .ok (sd, m)) ∧
    (∀ (m : SessionManager) (d : List SessionInfo), (m.refresh d).inv) ∧
    (∀ (m m₂ : SessionManager) (name : String) (sd : SessionData),
      m.inv → m.get_session name = .ok (sd, m₂) → m₂.inv) :=
  ⟨fun _ name hm => get_session_error_iff hm name,
   fun _ _ _ _ h => get_session_idem h,
   fun _ _ _ h => get_session_cached h,
   refresh_inv,
   fun _ _ _ _ hm h => get_session_inv hm h⟩

/-- C7 witness: the error criterion evaluated on a concrete manager. -/
theorem C7_witness :
    mW.inv ∧ ((∃ msg, mW.get_session "missing" = .error msg) ↔
      "missing" ∉ mW.session_info.map SessionInfo.name) :=
  ⟨by decide, C7_session_cache.1 mW "missing" (by decide)⟩

/-- C8: `get_merged_word_details` and `SessionData.get_word_details` are
total functions of their inputs: they look up the lower-cased word in the
(optionally filtered) table, return the explicit zero entry
`{total_count: 0, speaker_count: 0, speakers: {}, metadata: {}}` when the
word is absent, and the stored entry when present — never an error. -/
theorem C8_word_details_total :
    (∀ (nltk : List String) (sessions : List SessionData) (F : Filters)
      (word : String),
      lookup (mergedFilteredStats nltk sessions F) (lowerStr word) = none →
        get_merged_word_details nltk sessions word F = zeroEntry) ∧
    (∀ (nltk : List String) (sessions : List SessionData) (F : Filters)
      (word : String) (e : WordStatsEntry),
      lookup (mergedFilteredStats nltk sessions F) (lowerStr word) = some e →
        get_merged_word_details nltk sessions word F = e) ∧
    (∀ (nltk : List String) (s : SessionData) (F : Filters) (word : String),
      lookup (sessionFilteredStats nltk s F) (lowerStr word) = none →
        SessionData.get_word_details nltk s word F = zeroEntry) ∧
    (∀ (nltk : List String) (s : SessionData) (F : Filters) (word : String)
      (e : WordStatsEntry),
      lookup (sessionFilteredStats nltk s F) (lowerStr word) = some e →
        SessionData.get_word_details nltk s word F = e) := by
  refine ⟨?_, ?_, ?_, ?_⟩
  · intro nltk sessions F word h
    unfold get_merged_word_details
    rw [h]
    rfl
  · intro nltk sessions F word e h
    unfold get_merged_word_details
    rw [h]
    rfl
  · intro nltk s F word h
    unfold SessionData.get_word_details
    rw [h]
    rfl
  · intro nltk s F word e h
    unfold SessionData.get_word_details
    rw [h]
    rfl

/-- C8 witness: the spec's scenario `word_details("nonexistent", {})` on an
empty session list returns the zero entry. -/
theorem C8_witness :
    lookup (mergedFilteredStats [] [] []) (lowerStr "nonexistent") = none ∧
    get_merged_word_details [] [] "nonexistent" [] = zeroEntry :=
  ⟨by decide, C8_word_details_total.1 [] [] [] "nonexistent" (by decide)⟩

/-- C9: the word-to-frequency list produced for the renderer has at most
`top_n` entries, is ordered by non-increasing count, and is the `top_n`
prefix of a stable descending sort of the table: the sort is a permutation of
the table that preserves, for every count value, the original relative order
(ties keep encounter order). -/
theorem C9_frequencies_ordered :
    ∀ (T : Table) (n : Nat),
      (get_word_frequencies T n).length ≤ n ∧
      List.Pairwise (fun a b => b.2 ≤ a.2) (get_word_frequencies T n) ∧
      get_word_frequencies T n =
        ((sortByCountDesc T).take n).map (fun we => (we.1, we.2.total_count)) ∧
      List.Perm (sortByCountDesc T) T ∧
      (∀ c : Nat, (sortByCountDesc T).filter (fun q => q.2.total_count == c) =
        T.filter (fun q => q.2.total_count == c)) := by
  intro T n
  refine ⟨?_, ?_, rfl, sortByCountDesc_perm T, sortByCountDesc_filter T⟩
  · unfold get_word_frequencies
    rw [List.length_map]
    exact List.length_take_le n _
  · unfold get_word_frequencies
    exact List.Pairwise.map _ (fun a b h => h)
      (List.Pairwise.sublist (List.take_sublist n _) (sortByCountDesc_pairwise T))

/-- C10: every table produced by `compute_word_stats`, by `filter_word_stats`
from a positive table, or by `get_merged_word_stats`, has only strictly
positive counts: each entry's `total_count`, per-speaker counts, and metadata
value counts are all at least 1. -/
theorem C10_positive_counts :
    (∀ (nltk : List String) (words : List Token) (dir : Dir),
      tablePos (compute_word_stats nltk words dir)) ∧
    (∀ (T : Table) (dir : Dir) (F : Filters), tablePos T →
      tablePos (filter_word_stats T dir F)) ∧
    (∀ (nltk : List String) (sessions : List SessionData),
      tablePos (get_merged_word_stats nltk sessions)) :=
  ⟨compute_tablePos, fun _ dir F hT => filter_tablePos dir F hT, merged_tablePos⟩

/-- C10 witness: positivity evaluated on a concrete table and its concrete
filtering. -/
theorem C10_witness : tablePos TW ∧ tablePos (filter_word_stats TW dirW FW) :=
  ⟨by decide, C10_positive_counts.2.1 TW dirW FW (by decide)⟩

end WordCloud
